import Mathlib

/-!
# cloudfox: the ECR and Route53 enumeration modules

A shallow embedding of `aws/ecr.go` and `aws/route53.go`.

* Go strings are `String`; the comparison `<` on Go strings is `strLess`.
* `time.Time` values are represented by their calendar reading (the values of
  `Time.Date` and `Time.Clock`), which is what `Time.Format` renders.
* Calls that leave the repository (the service map, the cached ECR calls, the
  Route53 client, `sort.Slice`) are fields of an environment record. The
  cached calls are functions of their key, as memoisation makes them.
* `executeChecks` and `getECRRecordsPerRegion` are functions on the module:
  the methods run without interruption.
* The goroutines of `PrintECR` are threads of a transition system whose steps
  are picked by a schedule. The unbuffered hand-over of a record to `Receiver`
  together with the append it performs is one step. The system is given at two
  grains. In `stepWorker` a statement on the counter such as
  `m.CommandCounter.Complete++` is one step; it serves for what one worker
  does and for the semaphore, which do not depend on how such statements of
  different goroutines interleave. In `fineStepWorker` the load and the store
  of every `++` and `--` on the counter are steps of their own, as the code,
  which has no lock around them, allows; what is said of the counter of a run
  with several workers is said of this system.
* Go's `int` is `Int`; the statements about the counter of a run assume a
  counter and a number of regions far from the bounds of a 64-bit `int`, and
  `fine_counter_isInt64` shows that no statement of such a run wraps.
-/

namespace Cloudfox

set_option maxRecDepth 100000

/-! ## Go strings -/

/-- Go's `<` on strings: lexicographic comparison, character by character. -/
def lexLess : List Char → List Char → Bool
  | [], [] => false
  | [], _ :: _ => true
  | _ :: _, [] => false
  | a :: as, b :: bs =>
    if a.toNat < b.toNat then true
    else if b.toNat < a.toNat then false
    else lexLess as bs

/-- Go's `s < t` for strings `s` and `t`. -/
def strLess (s t : String) : Bool := lexLess s.data t.data

/-- The helper `aws.ToString`: the empty string for a nil pointer. -/
def ToString (p : Option String) : String := p.getD ""

/-- The helper `aws.ToInt64`: zero for a nil pointer. -/
def ToInt64 (p : Option Int) : Int := p.getD 0

/-! ## time.Time -/

/-- The calendar reading of a `time.Time` in its location: `month` and `day`
count from zero (January and the first of the month are `0`). The SDK
deserialises every timestamp of a response in UTC, so two values of this type
are readings in one location. -/
structure Time where
  year : Int
  month : Fin 12
  day : Fin 31
  hour : Fin 24
  minute : Fin 60
  second : Fin 60
deriving DecidableEq, Repr

/-- The decimal digit `d % 10` as a character. -/
def digitChar (d : Nat) : Char :=
  match d % 10 with
  | 0 => '0' | 1 => '1' | 2 => '2' | 3 => '3' | 4 => '4'
  | 5 => '5' | 6 => '6' | 7 => '7' | 8 => '8' | _ => '9'

/-- Go's `time.appendInt`: the decimal form of `x`, a minus sign first when `x`
is negative, the digits padded with zeros to `width`. The two- and four-digit
cases are the fast paths of the library function. -/
def appendInt (x : Int) (width : Nat) : List Char :=
  let u := x.natAbs
  let sign := if x < 0 then ['-'] else []
  if width = 2 ∧ u < 100 then
    sign ++ [digitChar (u / 10), digitChar u]
  else if width = 4 ∧ u < 10000 then
    sign ++ [digitChar (u / 1000), digitChar (u / 100), digitChar (u / 10), digitChar u]
  else
    let ds := Nat.toDigits 10 u
    sign ++ List.replicate (width - ds.length) '0' ++ ds

/-- The characters of `t.Format("2006-01-02 15:04:05")`. -/
def Time.formatChars (t : Time) : List Char :=
  appendInt t.year 4 ++ '-' :: appendInt (t.month.val + 1) 2 ++ '-' :: appendInt (t.day.val + 1) 2
    ++ ' ' :: appendInt t.hour.val 2 ++ ':' :: appendInt t.minute.val 2
    ++ ':' :: appendInt t.second.val 2

/-- The call `t.Format("2006-01-02 15:04:05")`. -/
def Time.Format (t : Time) : String := String.mk t.formatChars

/-- The method `t.Before(u)` at one-second resolution: the calendar readings
compared field by field, most significant first. -/
def Time.Before (t u : Time) : Bool :=
  if t.year ≠ u.year then decide (t.year < u.year)
  else if t.month ≠ u.month then decide (t.month < u.month)
  else if t.day ≠ u.day then decide (t.day < u.day)
  else if t.hour ≠ u.hour then decide (t.hour < u.hour)
  else if t.minute ≠ u.minute then decide (t.minute < u.minute)
  else decide (t.second < u.second)

/-! ## The ECR module: data -/

/-- The struct `internal.CommandCounter`; its fields are Go `int`s, far from
their bounds in every run considered here. -/
structure CommandCounter where
  Total : Int
  Pending : Int
  Complete : Int
  Error : Int
  Executing : Int
deriving DecidableEq, Repr

/-- The fields of the SDK's `types.Repository` that the module reads. -/
structure RepositoryDetail where
  RepositoryName : Option String
  RepositoryUri : Option String
deriving DecidableEq, Repr

/-- The fields of the SDK's `types.ImageDetail` that the module reads.
`ImagePushedAt` is the timestamp DescribeImages returns for every image; the
module calls `Format` on it without a nil check, and a nil pointer, on which
that call panics, is outside the embedding. -/
structure ImageDetail where
  ImagePushedAt : Time
  ImageTags : List String
  ImageSizeInBytes : Option Int
deriving DecidableEq, Repr

/-- The struct `Repository` of `ecr.go`; `Policy` and `PolicyJSON` are never
set by the module and are left out. -/
structure Repository where
  AWSService : String
  Region : String
  Name : String
  URI : String
  PushedAt : String
  ImageTags : String
  ImageSize : Int
deriving DecidableEq, Repr

/-- What the module calls outside the repository. A Go `error` is represented
by its message. -/
structure Env where
  /-- The lookup `servicemap.IsServiceInRegion(service, region)`. -/
  IsServiceInRegion : String → String → Bool × Option String
  /-- The call `sdk.CachedECRDescribeRepositories(client, account, region)`. -/
  CachedECRDescribeRepositories : String → String → Except String (List RepositoryDetail)
  /-- The call `sdk.CachedECRDescribeImages(client, account, region, repoName)`. -/
  CachedECRDescribeImages : String → String → String → Except String (List ImageDetail)
  /-- The library function `sort.Slice`, given the comparison on elements. -/
  sortSlice : (ImageDetail → ImageDetail → Bool) → List ImageDetail → List ImageDetail

/-- The fields of `ECRModule` that the run reads and writes: `Account` is
`Caller.Account`, `Goroutines` the capacity handed to `make(chan struct{}, ...)`
(a negative one makes `make` panic before any goroutine is started and is
outside the embedding), and `modLog` holds the messages passed to
`m.modLog.Error`. -/
structure ECRModule where
  Account : Option String
  AWSRegions : List String
  Goroutines : Nat
  Repositories : List Repository
  CommandCounter : CommandCounter
  modLog : List String
deriving DecidableEq, Repr

/-- The statement `m.CommandCounter.Error++`. -/
def ECRModule.incError (m : ECRModule) : ECRModule :=
  { m with CommandCounter := { m.CommandCounter with Error := m.CommandCounter.Error + 1 } }

/-- The statement `m.modLog.Error(msg)`. -/
def ECRModule.logError (m : ECRModule) (msg : String) : ECRModule :=
  { m with modLog := m.modLog ++ [msg] }

/-- The statement `if err != nil { m.modLog.Error(err) }`. -/
def ECRModule.logIfError (m : ECRModule) (err : Option String) : ECRModule :=
  match err with
  | some e => m.logError e
  | none => m

/-- The statement `m.CommandCounter.Total++`. -/
def ECRModule.incTotal (m : ECRModule) : ECRModule :=
  { m with CommandCounter := { m.CommandCounter with Total := m.CommandCounter.Total + 1 } }

/-- The deferred statements `m.CommandCounter.Executing--` and
`m.CommandCounter.Complete++`. -/
def ECRModule.complete (m : ECRModule) : ECRModule :=
  { m with CommandCounter :=
    { m.CommandCounter with
      Executing := m.CommandCounter.Executing - 1
      Complete := m.CommandCounter.Complete + 1 } }

/-- The statement `m.Repositories = append(m.Repositories, data)` of `Receiver`. -/
def ECRModule.receive (m : ECRModule) (data : Repository) : ECRModule :=
  { m with Repositories := m.Repositories ++ [data] }

/-! ## The ECR module: the fetch of one region -/

/-- The method `describeRepositories`. -/
def describeRepositories (env : Env) (m : ECRModule) (r : String) :
    ECRModule × Except String (List RepositoryDetail) :=
  match env.CachedECRDescribeRepositories (ToString m.Account) r with
  | .error err => (m.incError, .error err)
  | .ok Repositories => (m, .ok ([] ++ Repositories))

/-- The method `describeImages`. -/
def describeImages (env : Env) (m : ECRModule) (r : String) (repoName : String) :
    ECRModule × Except String (List ImageDetail) :=
  match env.CachedECRDescribeImages (ToString m.Account) r repoName with
  | .error err => (m.incError, .error err)
  | .ok ImageDetails => (m, .ok ([] ++ ImageDetails))

/-- The local variables of `getECRRecordsPerRegion` that the loop over the
repositories assigns. -/
structure Locals where
  allImages : List ImageDetail
  repoURI : String
  repoName : String
deriving DecidableEq, Repr

/-- The loop `for _, repo := range DescribeRepositories` of
`getECRRecordsPerRegion`; `none` is the early `return` taken when
`describeImages` fails. -/
def imagesLoop (env : Env) (r : String) :
    List RepositoryDetail → ECRModule → Locals → ECRModule × Option Locals
  | [], m, v => (m, some v)
  | repo :: rest, m, v =>
    let repoName := ToString repo.RepositoryName
    let repoURI := ToString repo.RepositoryUri
    match describeImages env m r repoName with
    | (m1, .error err) => ((m1.logError err).incError, none)
    | (m1, .ok images) =>
      imagesLoop env r rest m1
        { allImages := v.allImages ++ images, repoURI := repoURI, repoName := repoName }

/-- The comparison handed to `sort.Slice`, on the elements at the two indices. -/
def pushedAtLess (a b : ImageDetail) : Bool :=
  strLess a.ImagePushedAt.Format b.ImagePushedAt.Format

/-- The choice of `image` after the sort: the last element of a slice of two
or more, the only element of a slice of one, `none` for the `return` on an
empty slice. -/
def selectImage (allImages : List ImageDetail) : Option ImageDetail :=
  if allImages.length > 1 then allImages[allImages.length - 1]?
  else if allImages.length = 1 then allImages[0]?
  else none

/-- The first tag of the image, the empty string when it has none. -/
def firstTag (image : ImageDetail) : String :=
  if image.ImageTags.length > 0 then image.ImageTags.headD "" else ""

/-- The record built from the selected image and the loop's last repository. -/
def buildRecord (r : String) (v : Locals) (image : ImageDetail) : Repository :=
  let imageTags := firstTag image
  let pushedAt := image.ImagePushedAt.Format
  let imageSize := ToInt64 image.ImageSizeInBytes
  let pullURI := v.repoURI ++ ":" ++ imageTags
  { AWSService := "ECR", Name := v.repoName, Region := r, URI := pullURI,
    PushedAt := pushedAt, ImageTags := imageTags, ImageSize := imageSize }

/-- The body of `getECRRecordsPerRegion` between the acquisition of the permit
and the return: the module after it and the record it sends on `dataReceiver`,
if any. -/
def fetchPhase (env : Env) (m : ECRModule) (r : String) : ECRModule × Option Repository :=
  match describeRepositories env m r with
  | (m1, .error err) => ((m1.logError err).incError, none)
  | (m1, .ok DescribeRepositories) =>
    match imagesLoop env r DescribeRepositories m1
        { allImages := [], repoURI := "", repoName := "" } with
    | (m2, none) => (m2, none)
    | (m2, some v) =>
      match selectImage (env.sortSlice pushedAtLess v.allImages) with
      | none => (m2, none)
      | some image => (m2, some (buildRecord r v image))

/-- The method `getECRRecordsPerRegion` run without interruption, once the
semaphore has let it in: the body, the receipt of the record it sends by
`Receiver` (`m.Repositories = append(m.Repositories, data)`), and the deferred
`Executing--` and `Complete++`. -/
def getECRRecordsPerRegion (env : Env) (m : ECRModule) (r : String) : ECRModule :=
  match fetchPhase env m r with
  | (m1, some rec) => (m1.receive rec).complete
  | (m1, none) => m1.complete

/-- The method `executeChecks` run without interruption. -/
def executeChecks (env : Env) (m : ECRModule) (r : String) : ECRModule :=
  let res := env.IsServiceInRegion "ecr" r
  let m1 := m.logIfError res.2
  if res.1 then getECRRecordsPerRegion env m1.incTotal r
  else m1

/-! ## The ECR module: the run as a transition system

In this system a statement on the counter is one step of its goroutine. The
counter is updated without synchronisation, so the system is used only where
the interleaving of such statements does not matter: for a single worker, and
for the semaphore, whose operations are synchronised. The system with the
loads and stores split follows below (`fineStepWorker`). -/

/-- Where a worker goroutine stands in `executeChecks` and
`getECRRecordsPerRegion`. -/
inductive PC where
  /-- At the entry of `executeChecks`. -/
  | checks
  /-- In `getECRRecordsPerRegion`, at `semaphore <- struct{}{}`. -/
  | acquire
  /-- A permit is held; at `m.describeRepositories(r)`. -/
  | fetch
  /-- A permit is held; at `dataReceiver <- Repository{...}`. -/
  | send (rec : Repository)
  /-- A permit is held; the body has returned, the deferred `<-semaphore` is next. -/
  | release
  /-- The permit is given back; the deferred update of the counter is next. -/
  | deferred
  /-- Back in `executeChecks`; its deferred `wg.Done()` is next. -/
  | returned
  /-- The goroutine has ended. -/
  | done
deriving DecidableEq, Repr

/-- A goroutine started by `go m.executeChecks(region, ...)`. -/
structure Worker where
  region : String
  pc : PC
deriving DecidableEq, Repr

/-- The state of a run of `PrintECR` up to the return of `wg.Wait()`:
the module, the regions the loop has not reached yet, the counter of the wait
group, the number of items in the channel `semaphore` and its capacity, the
goroutines started so far, and whether `wg.Wait()` has returned. -/
structure RunState where
  m : ECRModule
  toStart : List String
  wg : Int
  semaphore : Nat
  capacity : Nat
  workers : List Worker
  joined : Bool
deriving DecidableEq, Repr

/-- The state at the loop of `PrintECR`:
`semaphore := make(chan struct{}, m.Goroutines)`, no goroutine started. -/
def initial (m : ECRModule) : RunState :=
  { m := m, toStart := m.AWSRegions, wg := 0, semaphore := 0,
    capacity := m.Goroutines, workers := [], joined := false }

/-- A permit is held at these places: after `semaphore <- struct{}{}` and
before the deferred `<-semaphore`. -/
def PC.holdsPermit : PC → Bool
  | .fetch => true
  | .send _ => true
  | .release => true
  | _ => false

/-- One step of the goroutine of `PrintECR`: an iteration of
`for _, region := range m.AWSRegions` (`wg.Add(1)`, `Pending++`, `go`), or,
after the loop, the return of `wg.Wait()` once the counter is zero. -/
def stepMain (s : RunState) : RunState :=
  match s.toStart with
  | region :: rest =>
    { s with
      toStart := rest
      wg := s.wg + 1
      m := { s.m with CommandCounter :=
        { s.m.CommandCounter with Pending := s.m.CommandCounter.Pending + 1 } }
      workers := s.workers ++ [{ region := region, pc := .checks }] }
  | [] => if s.wg = 0 then { s with joined := true } else s

/-- One step of worker `i`; a worker that is blocked or has ended leaves the
state as it is. The statements on the counter (`Total++`, the `Error++` of a
failed fetch, `Executing--` and `Complete++`) are taken in one step each with
their neighbours; `fineStepWorker` splits them. -/
def stepWorker (env : Env) (s : RunState) (i : Nat) : RunState :=
  match s.workers[i]? with
  | none => s
  | some w =>
    match w.pc with
    | .checks =>
      let res := env.IsServiceInRegion "ecr" w.region
      let m1 := s.m.logIfError res.2
      if res.1 then
        { s with
          m := m1.incTotal
          wg := s.wg + 1
          workers := s.workers.set i { w with pc := .acquire } }
      else
        { s with m := m1, wg := s.wg - 1, workers := s.workers.set i { w with pc := .done } }
    | .acquire =>
      if s.semaphore < s.capacity then
        { s with semaphore := s.semaphore + 1, workers := s.workers.set i { w with pc := .fetch } }
      else s
    | .fetch =>
      match fetchPhase env s.m w.region with
      | (m1, some rec) => { s with m := m1, workers := s.workers.set i { w with pc := .send rec } }
      | (m1, none) => { s with m := m1, workers := s.workers.set i { w with pc := .release } }
    | .send rec =>
      { s with m := s.m.receive rec, workers := s.workers.set i { w with pc := .release } }
    | .release =>
      { s with semaphore := s.semaphore - 1, workers := s.workers.set i { w with pc := .deferred } }
    | .deferred =>
      { s with
        m := s.m.complete
        wg := s.wg - 1
        workers := s.workers.set i { w with pc := .returned } }
    | .returned =>
      { s with wg := s.wg - 1, workers := s.workers.set i { w with pc := .done } }
    | .done => s

/-- One step of the run: thread `0` is `PrintECR`, thread `i + 1` is the
worker of the `i`-th region. -/
def step (env : Env) (s : RunState) : Nat → RunState
  | 0 => stepMain s
  | i + 1 => stepWorker env s i

/-- The run under a schedule, the list of the threads that step in turn. -/
def run (env : Env) (s : RunState) (sched : List Nat) : RunState :=
  sched.foldl (step env) s

/-- The run of `PrintECR` on module `m` under a schedule, up to `wg.Wait()`. -/
def PrintECR (env : Env) (m : ECRModule) (sched : List Nat) : RunState :=
  run env (initial m) sched

/-- The schedule that starts `n` workers, runs them to their end one after the
other and then lets `wg.Wait()` return. -/
def sequentialSchedule (n : Nat) : List Nat :=
  List.replicate n 0 ++ (List.range n).flatMap (fun i => List.replicate 7 (i + 1)) ++ [0]

/-- The number of workers between the acquisition and the release of a permit. -/
def RunState.inFetchPhase (s : RunState) : Nat :=
  s.workers.countP (fun w => w.pc.holdsPermit)

/-! ## The ECR module: what a region's fetch amounts to -/

/-- A module with the given account and nothing else. -/
def blank (account : Option String) : ECRModule :=
  { Account := account, AWSRegions := [], Goroutines := 0, Repositories := [],
    CommandCounter := { Total := 0, Pending := 0, Complete := 0, Error := 0, Executing := 0 },
    modLog := [] }

/-- By how much the fetch of region `r` raises `CommandCounter.Error`. -/
def fetchErrors (env : Env) (account : Option String) (r : String) : Int :=
  (fetchPhase env (blank account) r).1.CommandCounter.Error

/-- The messages the fetch of region `r` logs. -/
def fetchLog (env : Env) (account : Option String) (r : String) : List String :=
  (fetchPhase env (blank account) r).1.modLog

/-- The record the fetch of region `r` sends, if any. -/
def fetchRecord (env : Env) (account : Option String) (r : String) : Option Repository :=
  (fetchPhase env (blank account) r).2

/-- Whether the availability lookup lets region `r` through. -/
def available (env : Env) (r : String) : Bool := (env.IsServiceInRegion "ecr" r).1

/-- Whether every remote call of the fetch of region `r` succeeds:
DescribeRepositories, and DescribeImages for each of its repositories. -/
def fetchSucceeds (env : Env) (account : Option String) (r : String) : Bool :=
  match env.CachedECRDescribeRepositories (ToString account) r with
  | .error _ => false
  | .ok repos => repos.all fun repo =>
      match env.CachedECRDescribeImages (ToString account) r (ToString repo.RepositoryName) with
      | .error _ => false
      | .ok _ => true

/-- The repositories DescribeRepositories returns for region `r` (none when
the call fails). -/
def regionRepositories (env : Env) (account : Option String) (r : String) :
    List RepositoryDetail :=
  match env.CachedECRDescribeRepositories (ToString account) r with
  | .error _ => []
  | .ok repos => repos

/-- The images DescribeImages returns for one repository (none when the call
fails). -/
def repositoryImages (env : Env) (account : Option String) (r : String)
    (repo : RepositoryDetail) : List ImageDetail :=
  match env.CachedECRDescribeImages (ToString account) r (ToString repo.RepositoryName) with
  | .error _ => []
  | .ok images => images

/-- The images of region `r`, in the order the API produced them: the image
lists of its repositories one after the other. -/
def regionImages (env : Env) (account : Option String) (r : String) : List ImageDetail :=
  (regionRepositories env account r).flatMap (repositoryImages env account r)

/-! ## sort.Slice as the Go library implements it

The functions below follow `zsortfunc.go` and `sort.go` of Go's package `sort`,
in which `sort.Slice` is a pattern-defeating quicksort since Go 1.19: the slice
is a list, `data.Less(i, j)` and `data.Swap(i, j)` are `lessAt` and `swapAt`, and
every loop carries a bound on its number of iterations. The documentation of
`sort.Slice` promises a sorted permutation and no stability; the environment
field `Env.sortSlice` stands for any implementation, and `Slice` is this
one. -/

section GoSort

variable {α : Type}

/-- The call `data.Less(i, j)`. -/
def lessAt (less : α → α → Bool) (data : List α) (i j : Nat) : Bool :=
  match data[i]?, data[j]? with
  | some x, some y => less x y
  | _, _ => false

/-- The call `data.Swap(i, j)`. -/
def swapAt (data : List α) (i j : Nat) : List α :=
  match data[i]?, data[j]? with
  | some x, some y => (data.set i y).set j x
  | _, _ => data

/-- The inner loop of `insertionSort_func`:
`for j := i; j > a && data.Less(j, j-1); j-- { data.Swap(j, j-1) }`. -/
def insertionInner (less : α → α → Bool) (a : Nat) : Nat → List α → List α
  | 0, data => data
  | j + 1, data =>
    if j + 1 > a ∧ lessAt less data (j + 1) j then
      insertionInner less a j (swapAt data (j + 1) j)
    else data

/-- The outer loop of `insertionSort_func`, from index `i`, with `n`
iterations left at most. -/
def insertionOuter (less : α → α → Bool) (a b : Nat) : Nat → Nat → List α → List α
  | 0, _, data => data
  | n + 1, i, data =>
    if i < b then insertionOuter less a b n (i + 1) (insertionInner less a i data)
    else data

/-- The function `insertionSort_func(data, a, b)`. -/
def insertionSort_func (less : α → α → Bool) (data : List α) (a b : Nat) : List α :=
  insertionOuter less a b (b - a) (a + 1) data

/-- The loop of `siftDown_func(data, lo, hi, first)` from `root`. -/
def siftDownLoop (less : α → α → Bool) (hi first : Nat) : Nat → Nat → List α → List α
  | 0, _, data => data
  | n + 1, root, data =>
    let child := 2 * root + 1
    if child ≥ hi then data
    else
      let child := if child + 1 < hi ∧ lessAt less data (first + child) (first + child + 1)
        then child + 1 else child
      if !lessAt less data (first + root) (first + child) then data
      else siftDownLoop less hi first n child (swapAt data (first + root) (first + child))

/-- The function `siftDown_func(data, lo, hi, first)`. -/
def siftDown_func (less : α → α → Bool) (data : List α) (lo hi first : Nat) : List α :=
  siftDownLoop less hi first hi lo data

/-- The first loop of `heapSort_func`: `siftDown` for `i`, `i - 1`, ..., `0`. -/
def heapBuild (less : α → α → Bool) (hi first : Nat) : Nat → List α → List α
  | 0, data => siftDown_func less data 0 hi first
  | i + 1, data => heapBuild less hi first i (siftDown_func less data (i + 1) hi first)

/-- The second loop of `heapSort_func`: the greatest element is moved to
index `first + i` for `i`, `i - 1`, ..., `0`. -/
def heapPop (less : α → α → Bool) (first : Nat) : Nat → List α → List α
  | 0, data => siftDown_func less (swapAt data first first) 0 0 first
  | i + 1, data =>
    heapPop less first i (siftDown_func less (swapAt data first (first + (i + 1))) 0 (i + 1) first)

/-- The function `heapSort_func(data, a, b)`. -/
def heapSort_func (less : α → α → Bool) (data : List α) (a b : Nat) : List α :=
  let hi := b - a
  if hi = 0 then data
  else heapPop less a (hi - 1) (heapBuild less hi a ((hi - 1) / 2) data)

/-- The function `order2_func`: the two indices in the order of their
elements, and the count of swaps. -/
def order2_func (less : α → α → Bool) (data : List α) (a b swaps : Nat) : Nat × Nat × Nat :=
  if lessAt less data b a then (b, a, swaps + 1) else (a, b, swaps)

/-- The function `median_func`: the index of the median of three elements,
and the count of swaps. -/
def median_func (less : α → α → Bool) (data : List α) (a b c swaps : Nat) : Nat × Nat :=
  let (a, b, swaps) := order2_func less data a b swaps
  let (b, _, swaps) := order2_func less data b c swaps
  let (_, b, swaps) := order2_func less data a b swaps
  (b, swaps)

/-- The function `medianAdjacent_func`. -/
def medianAdjacent_func (less : α → α → Bool) (data : List α) (a swaps : Nat) : Nat × Nat :=
  median_func less data (a - 1) a (a + 1) swaps

/-- The hints of `choosePivot_func`. -/
inductive sortedHint where
  | unknownHint
  | increasingHint
  | decreasingHint
deriving DecidableEq, Repr

/-- The function `choosePivot_func(data, a, b)`. -/
def choosePivot_func (less : α → α → Bool) (data : List α) (a b : Nat) : Nat × sortedHint :=
  let l := b - a
  let i := a + l / 4 * 1
  let j := a + l / 4 * 2
  let k := a + l / 4 * 3
  let (j, swaps) :=
    if l ≥ 8 then
      if l ≥ 50 then
        let (i, s1) := medianAdjacent_func less data i 0
        let (j, s2) := medianAdjacent_func less data j s1
        let (k, s3) := medianAdjacent_func less data k s2
        median_func less data i j k s3
      else median_func less data i j k 0
    else (j, 0)
  if swaps = 0 then (j, .increasingHint)
  else if swaps = 12 then (j, .decreasingHint)
  else (j, .unknownHint)

/-- The loop of `reverseRange_func`. -/
def reverseLoop : Nat → Nat → Nat → List α → List α
  | 0, _, _, data => data
  | n + 1, i, j, data => if i < j then reverseLoop n (i + 1) (j - 1) (swapAt data i j) else data

/-- The function `reverseRange_func(data, a, b)`. -/
def reverseRange_func (data : List α) (a b : Nat) : List α :=
  reverseLoop (b - a) a (b - 1) data

/-- The scan `for i <= j && data.Less(i, a) { i++ }` of `partition_func`;
the indices are shifted by one so that `j1` stands for `j + 1`. -/
def scanUp (less : α → α → Bool) (data : List α) (a j1 : Nat) : Nat → Nat → Nat
  | 0, i => i
  | n + 1, i => if i < j1 ∧ lessAt less data i a then scanUp less data a j1 n (i + 1) else i

/-- The scan `for i <= j && !data.Less(j, a) { j-- }` of `partition_func`,
on `j1 = j + 1`. -/
def scanDown (less : α → α → Bool) (data : List α) (a i : Nat) : Nat → Nat
  | 0 => 0
  | j + 1 => if i ≤ j ∧ !lessAt less data j a then scanDown less data a i j else j + 1

/-- The main loop of `partition_func`, on `j1 = j + 1`; the result is the
slice and the final `j + 1`. -/
def partitionLoop (less : α → α → Bool) (a : Nat) : Nat → Nat → Nat → List α → List α × Nat
  | 0, _, j1, data => (data, j1)
  | n + 1, i, j1, data =>
    let i := scanUp less data a j1 (j1 - i) i
    let j1 := scanDown less data a i j1
    if i ≥ j1 then (data, j1)
    else partitionLoop less a n (i + 1) (j1 - 1) (swapAt data i (j1 - 1))

/-- The function `partition_func(data, a, b, pivot)`: the slice, the new index
of the pivot and whether the slice was already partitioned. -/
def partition_func (less : α → α → Bool) (data : List α) (a b pivot : Nat) :
    List α × Nat × Bool :=
  let data := swapAt data a pivot
  let i := scanUp less data a b (b - (a + 1)) (a + 1)
  let j1 := scanDown less data a i b
  if i ≥ j1 then (swapAt data (j1 - 1) a, j1 - 1, true)
  else
    let (data, j1) := partitionLoop less a (b - a) (i + 1) (j1 - 1) (swapAt data i (j1 - 1))
    (swapAt data (j1 - 1) a, j1 - 1, false)

/-- The scan `for i <= j && !data.Less(a, i) { i++ }` of `partitionEqual_func`. -/
def scanUpEqual (less : α → α → Bool) (data : List α) (a j1 : Nat) : Nat → Nat → Nat
  | 0, i => i
  | n + 1, i => if i < j1 ∧ !lessAt less data a i then scanUpEqual less data a j1 n (i + 1) else i

/-- The scan `for i <= j && data.Less(a, j) { j-- }` of `partitionEqual_func`,
on `j1 = j + 1`. -/
def scanDownEqual (less : α → α → Bool) (data : List α) (a i : Nat) : Nat → Nat
  | 0 => 0
  | j + 1 => if i ≤ j ∧ lessAt less data a j then scanDownEqual less data a i j else j + 1

/-- The loop of `partitionEqual_func`, on `j1 = j + 1`; the result is the
slice and the final `i`. -/
def partitionEqualLoop (less : α → α → Bool) (a : Nat) :
    Nat → Nat → Nat → List α → List α × Nat
  | 0, i, _, data => (data, i)
  | n + 1, i, j1, data =>
    let i := scanUpEqual less data a j1 (j1 - i) i
    let j1 := scanDownEqual less data a i j1
    if i ≥ j1 then (data, i)
    else partitionEqualLoop less a n (i + 1) (j1 - 1) (swapAt data i (j1 - 1))

/-- The function `partitionEqual_func(data, a, b, pivot)`. -/
def partitionEqual_func (less : α → α → Bool) (data : List α) (a b pivot : Nat) : List α × Nat :=
  partitionEqualLoop less a (b - a + 1) (a + 1) b (swapAt data a pivot)

/-- The scan `for i < b && !data.Less(i, i-1) { i++ }` of
`partialInsertionSort_func`. -/
def scanSorted (less : α → α → Bool) (data : List α) (b : Nat) : Nat → Nat → Nat
  | 0, i => i
  | n + 1, i => if i < b ∧ !lessAt less data i (i - 1) then scanSorted less data b n (i + 1) else i

/-- The loop `for j := i - 1; j >= 1; j--` of `partialInsertionSort_func` that
shifts the smaller element to the left. -/
def shiftLeft (less : α → α → Bool) : Nat → List α → List α
  | 0, data => data
  | j + 1, data =>
    if !lessAt less data (j + 1) j then data else shiftLeft less j (swapAt data (j + 1) j)

/-- The loop `for j := i + 1; j < b; j++` of `partialInsertionSort_func` that
shifts the greater element to the right. -/
def shiftRight (less : α → α → Bool) (b : Nat) : Nat → Nat → List α → List α
  | 0, _, data => data
  | n + 1, j, data =>
    if j < b then
      if !lessAt less data j (j - 1) then data
      else shiftRight less b n (j + 1) (swapAt data j (j - 1))
    else data

/-- The loop of `partialInsertionSort_func` with `steps` rounds left: the
slice and whether it is sorted at the end. -/
def partialInsertionLoop (less : α → α → Bool) (a b : Nat) :
    Nat → Nat → List α → List α × Bool
  | 0, _, data => (data, false)
  | steps + 1, i, data =>
    let i := scanSorted less data b (b - i) i
    if i = b then (data, true)
    else if b - a < 50 then (data, false)
    else
      let data := swapAt data i (i - 1)
      let data := if i - a ≥ 2 then shiftLeft less (i - 1) data else data
      let data := if b - i ≥ 2 then shiftRight less b (b - i) (i + 1) data else data
      partialInsertionLoop less a b steps i data

/-- The function `partialInsertionSort_func(data, a, b)`. -/
def partialInsertionSort_func (less : α → α → Bool) (data : List α) (a b : Nat) :
    List α × Bool :=
  partialInsertionLoop less a b 5 (a + 1) data

/-- The method `Next` of `xorshift`, on 64-bit words:
`*r ^= *r << 13`, `*r ^= *r >> 7`, `*r ^= *r << 17`. -/
def xorshiftNext (r : Nat) : Nat :=
  let r := r ^^^ ((r <<< 13) % 2 ^ 64)
  let r := r ^^^ (r >>> 7)
  r ^^^ ((r <<< 17) % 2 ^ 64)

/-- The loop of `bits.Len`: the number of halvings that take `x` to zero. -/
def LenLoop : Nat → Nat → Nat
  | 0, _ => 0
  | n + 1, x => if x = 0 then 0 else 1 + LenLoop n (x / 2)

/-- The function `bits.Len(x)`: the number of bits needed to represent `x`. -/
def Len (x : Nat) : Nat := LenLoop x x

/-- The function `nextPowerOfTwo`: `1 << bits.Len(length)`. -/
def nextPowerOfTwo (length : Nat) : Nat := 2 ^ (Len length)

/-- The loop of `breakPatterns_func`, for `i`, `i + 1`, ... below `3`: its
body ends with `data.Swap(idx-1+i, a+other)`, where `breakPatterns_func` has
set `idx := a + (length/4)*2 - 1`. -/
def breakLoop (a length idx modulus : Nat) : Nat → Nat → Nat → List α → List α
  | 0, _, _, data => data
  | n + 1, i, random, data =>
    let random := xorshiftNext random
    let other := random % modulus
    let other := if other ≥ length then other - length else other
    breakLoop a length idx modulus n (i + 1) random (swapAt data (idx - 1 + i) (a + other))

/-- The function `breakPatterns_func(data, a, b)`. -/
def breakPatterns_func (data : List α) (a b : Nat) : List α :=
  let length := b - a
  if length ≥ 8 then
    breakLoop a length (a + (length / 4) * 2 - 1) (nextPowerOfTwo length) 3 0 length data
  else data

/-- The function `pdqsort_func(data, a, b, limit)`, its loop variables
`wasBalanced` and `wasPartitioned` made arguments; `fuel` bounds the nesting
of loop iterations and recursive calls. -/
def pdqsort_func (less : α → α → Bool) :
    Nat → List α → Nat → Nat → Nat → Bool → Bool → List α
  | 0, data, _, _, _, _, _ => data
  | fuel + 1, data, a, b, limit, wasBalanced, wasPartitioned =>
    let length := b - a
    if length ≤ 12 then insertionSort_func less data a b
    else if limit = 0 then heapSort_func less data a b
    else
      let data := if !wasBalanced then breakPatterns_func data a b else data
      let limit := if !wasBalanced then limit - 1 else limit
      let (pivot, hint) := choosePivot_func less data a b
      let data := if hint = .decreasingHint then reverseRange_func data a b else data
      let pivot := if hint = .decreasingHint then (b - 1) - (pivot - a) else pivot
      let hint := if hint = .decreasingHint then sortedHint.increasingHint else hint
      let (data, sorted) :=
        if wasBalanced ∧ wasPartitioned ∧ hint = .increasingHint then
          partialInsertionSort_func less data a b
        else (data, false)
      if sorted then data
      else if a > 0 ∧ !lessAt less data (a - 1) pivot then
        let (data, mid) := partitionEqual_func less data a b pivot
        pdqsort_func less fuel data mid b limit wasBalanced wasPartitioned
      else
        let (data, mid, alreadyPartitioned) := partition_func less data a b pivot
        let leftLen := mid - a
        let rightLen := b - mid
        let balanceThreshold := length / 8
        if leftLen < rightLen then
          let data := pdqsort_func less fuel data a mid limit true true
          pdqsort_func less fuel data (mid + 1) b limit
            (decide (leftLen ≥ balanceThreshold)) alreadyPartitioned
        else
          let data := pdqsort_func less fuel data (mid + 1) b limit true true
          pdqsort_func less fuel data a mid limit
            (decide (rightLen ≥ balanceThreshold)) alreadyPartitioned

/-- The function `sort.Slice(x, less)`: `pdqsort_func` on the whole slice with
`limit = bits.Len(length)`. -/
def Slice (less : α → α → Bool) (x : List α) : List α :=
  pdqsort_func less (x.length + 1) x 0 x.length (Len x.length) true true

end GoSort

/-! ## The Route53 module -/

/-- The struct `Record` of `route53.go`; `RecordType` is its field `Type`. -/
structure Record where
  AWSService : String
  Name : String
  RecordType : String
  Value : String
  PrivateZone : String
deriving DecidableEq, Repr

/-- The field of the SDK's `types.ResourceRecord` that the module reads. -/
structure ResourceRecord where
  Value : Option String
deriving DecidableEq, Repr

/-- The fields of the SDK's `types.ResourceRecordSet` that the module reads;
`RecordType` is its field `Type`. -/
structure ResourceRecordSet where
  Name : Option String
  RecordType : String
  ResourceRecords : List ResourceRecord
deriving DecidableEq, Repr

/-- The fields of the SDK's `types.HostedZone` that the module reads;
`PrivateZone` is `zone.Config.PrivateZone` (`Config` is set on every hosted
zone the service returns). -/
structure HostedZone where
  Id : Option String
  PrivateZone : Bool
deriving DecidableEq, Repr

/-- The output of `ListHostedZones`. -/
structure ListHostedZonesOutput where
  HostedZones : List HostedZone
  NextMarker : Option String
deriving DecidableEq, Repr

/-- The input of `ListResourceRecordSets`: the zone and the record name the
listing starts from (nil for the first page). -/
structure ListResourceRecordSetsInput where
  HostedZoneId : Option String
  StartRecordName : Option String
deriving DecidableEq, Repr

/-- The output of `ListResourceRecordSets`: a page of record sets, whether
the listing was truncated, and where the next page starts. -/
structure ListResourceRecordSetsOutput where
  ResourceRecordSets : List ResourceRecordSet
  IsTruncated : Bool
  NextRecordName : Option String
deriving DecidableEq, Repr

/-- The two operations of `route53.Client` that the module calls; the
argument of `ListHostedZones` is the field `Marker` of its input. -/
structure Route53Client where
  ListHostedZones : Option String → Except String ListHostedZonesOutput
  ListResourceRecordSets : ListResourceRecordSetsInput → Except String ListResourceRecordSetsOutput

/-- The fields of `Route53Module` that `getRoute53Records` reads and writes. -/
structure Route53Module where
  Records : List Record
  CommandCounter : CommandCounter
  modLog : List String
deriving DecidableEq, Repr

/-- The statements `m.modLog.Error(err.Error())` and `m.CommandCounter.Error++`. -/
def Route53Module.fail (m : Route53Module) (err : String) : Route53Module :=
  { m with
    modLog := m.modLog ++ [err]
    CommandCounter := { m.CommandCounter with Error := m.CommandCounter.Error + 1 } }

/-- The loop `for _, resourceRecord := range record.ResourceRecords`: the
records appended for one record set. -/
def recordsOfSet (privateZone : String) (record : ResourceRecordSet) : List Record :=
  let recordName := ToString record.Name
  let recordType := record.RecordType
  record.ResourceRecords.map fun resourceRecord =>
    { AWSService := "Route53", Name := recordName, RecordType := recordType,
      Value := ToString resourceRecord.Value, PrivateZone := privateZone }

/-- The text stored in `privateZone` for a hosted zone. -/
def privateZoneText (zone : HostedZone) : String :=
  if zone.PrivateZone then "True" else "False"

/-- The loop `for _, zone := range ListHostedZones.HostedZones` of
`getRoute53Records`; a failing `ListResourceRecordSets` ends the loop. -/
def zonesLoop (client : Route53Client) : List HostedZone → Route53Module → Route53Module
  | [], m => m
  | zone :: rest, m =>
    let id := ToString zone.Id
    let privateZone := privateZoneText zone
    match client.ListResourceRecordSets { HostedZoneId := some id, StartRecordName := none } with
    | .error err => m.fail err
    | .ok ListResourceRecordSets =>
      zonesLoop client rest
        { m with Records := m.Records ++
            ListResourceRecordSets.ResourceRecordSets.flatMap (recordsOfSet privateZone) }

/-- The loop `for { ... }` of `getRoute53Records` with `fuel` iterations at
most; `none` when they do not suffice. -/
def getRoute53RecordsLoop (client : Route53Client) :
    Nat → Option String → Route53Module → Option Route53Module
  | 0, _, _ => none
  | fuel + 1, PaginationControl, m =>
    match client.ListHostedZones PaginationControl with
    | .error err => some (m.fail err)
    | .ok ListHostedZones =>
      let m1 := zonesLoop client ListHostedZones.HostedZones m
      match ListHostedZones.NextMarker with
      | some marker => getRoute53RecordsLoop client fuel (some marker) m1
      | none => some m1

/-- The method `getRoute53Records`. -/
def getRoute53Records (client : Route53Client) (fuel : Nat) (m : Route53Module) :
    Option Route53Module :=
  getRoute53RecordsLoop client fuel none m

/-- The whole listing of hosted zones: the pages linked by `NextMarker`, one
after the other (`none` when a call fails or `fuel` pages do not end it). -/
def listedHostedZones (client : Route53Client) : Nat → Option String → Option (List HostedZone)
  | 0, _ => none
  | fuel + 1, marker =>
    match client.ListHostedZones marker with
    | .error _ => none
    | .ok page =>
      match page.NextMarker with
      | none => some page.HostedZones
      | some next => (listedHostedZones client fuel (some next)).map (page.HostedZones ++ ·)

/-- The whole listing of the record sets of a zone: the pages linked by
`NextRecordName` while `IsTruncated` is set, one after the other. -/
def listedRecordSets (client : Route53Client) (zoneId : String) :
    Nat → Option String → Option (List ResourceRecordSet)
  | 0, _ => none
  | fuel + 1, start =>
    match client.ListResourceRecordSets { HostedZoneId := some zoneId, StartRecordName := start } with
    | .error _ => none
    | .ok page =>
      if page.IsTruncated then
        (listedRecordSets client zoneId fuel page.NextRecordName).map (page.ResourceRecordSets ++ ·)
      else some page.ResourceRecordSets

/-- The records of a list of zones when every listing is followed to its end:
one record per value of every record set of every zone, in listing order. -/
def listedRecordsOfZones (client : Route53Client) (fuel : Nat) :
    List HostedZone → Option (List Record)
  | [] => some []
  | zone :: rest =>
    match listedRecordSets client (ToString zone.Id) fuel none,
        listedRecordsOfZones client fuel rest with
    | some sets, some records => some (sets.flatMap (recordsOfSet (privateZoneText zone)) ++ records)
    | _, _ => none

/-- The records of the account when every listing is followed to its end. -/
def listedRecords (client : Route53Client) (fuel : Nat) : Option (List Record) :=
  (listedHostedZones client fuel none).bind (listedRecordsOfZones client fuel)


/-! ## The ECR module: the run with the counter updates split

The goroutines started by `PrintECR` update `m.CommandCounter` without a lock
or an atomic operation: `Total++` in `executeChecks`, `Error++` in
`describeRepositories`, `describeImages` and their caller, `Executing--` and
`Complete++` in the deferred function, which runs after the permit has been
given back. In the system below each of these statements is two steps of its
goroutine, the load of the field and the store of the changed value, so that
steps of other goroutines can fall between them; a load reads the value of
the latest store of the schedule. The operations on the wait group, on the
channels and on the logger are synchronised and stay one step each; the remote
calls of a fetch, which touch nothing shared, are one step. `Pending` is
written by the goroutine of `PrintECR` alone. -/

/-- The loop `for _, repo := range DescribeRepositories` without the
statements on the counter and the log: the locals after the loop, or the error
of the first failing `describeImages`. -/
def loopOutcome (env : Env) (account : Option String) (r : String) :
    List RepositoryDetail → Locals → Except String Locals
  | [], v => .ok v
  | repo :: rest, v =>
    match env.CachedECRDescribeImages (ToString account) r (ToString repo.RepositoryName) with
    | .error err => .error err
    | .ok images =>
      loopOutcome env account r rest
        { allImages := v.allImages ++ images, repoURI := ToString repo.RepositoryUri,
          repoName := ToString repo.RepositoryName }

/-- The body of `getECRRecordsPerRegion` without the statements on the counter
and the log: the record to send (if any), or the error of the first failing
call. -/
def fetchOutcome (env : Env) (account : Option String) (r : String) :
    Except String (Option Repository) :=
  match env.CachedECRDescribeRepositories (ToString account) r with
  | .error err => .error err
  | .ok repos =>
    match loopOutcome env account r repos { allImages := [], repoURI := "", repoName := "" } with
    | .error err => .error err
    | .ok v => .ok ((selectImage (env.sortSlice pushedAtLess v.allImages)).map (buildRecord r v))

/-- The statements that follow a failed call: `m.CommandCounter.Error++` in the
helper, `m.modLog.Error(err.Error())` and `m.CommandCounter.Error++` in the
caller. -/
def ECRModule.failed (m : ECRModule) (err : String) : ECRModule :=
  (m.incError.logError err).incError

/-- Where a worker goroutine stands when the load and the store of every
statement on the counter are steps of their own; a place after a load carries
the value loaded. -/
inductive FinePC where
  /-- At the entry of `executeChecks`. -/
  | checks
  /-- At `m.CommandCounter.Total++`, before the load. -/
  | totalLoad
  /-- At `m.CommandCounter.Total++`, `v` loaded. -/
  | totalStore (v : Int)
  /-- At `wg.Add(1)`. -/
  | wgAdd
  /-- In `getECRRecordsPerRegion`, at `semaphore <- struct{}{}`. -/
  | acquire
  /-- A permit is held; at `m.describeRepositories(r)`. -/
  | fetch
  /-- A call has failed with `err`; at `Error++` of the helper, before the load. -/
  | errLoad1 (err : String)
  /-- At `Error++` of the helper, `v` loaded. -/
  | errStore1 (err : String) (v : Int)
  /-- At `m.modLog.Error(err.Error())` of the caller. -/
  | errLog (err : String)
  /-- At `Error++` of the caller, before the load. -/
  | errLoad2
  /-- At `Error++` of the caller, `v` loaded. -/
  | errStore2 (v : Int)
  /-- At `dataReceiver <- Repository{...}`. -/
  | send (rec : Repository)
  /-- The body has returned; the deferred `<-semaphore` is next. -/
  | release
  /-- The permit is given back; at `Executing--`, before the load. -/
  | execLoad
  /-- At `Executing--`, `v` loaded. -/
  | execStore (v : Int)
  /-- At `Complete++`, before the load. -/
  | compLoad
  /-- At `Complete++`, `v` loaded. -/
  | compStore (v : Int)
  /-- At `wg.Done()` of the deferred function. -/
  | wgDone
  /-- Back in `executeChecks`; its deferred `wg.Done()` is next. -/
  | returned
  /-- The goroutine has ended. -/
  | done
deriving DecidableEq, Repr

/-- A goroutine started by `go m.executeChecks(region, ...)`. -/
structure FineWorker where
  region : String
  pc : FinePC
deriving DecidableEq, Repr

/-- The state of a run of `PrintECR` up to the return of `wg.Wait()`, like
`RunState`, with workers at the places of `FinePC`. -/
structure FineState where
  m : ECRModule
  toStart : List String
  wg : Int
  semaphore : Nat
  capacity : Nat
  workers : List FineWorker
  joined : Bool
deriving DecidableEq, Repr

/-- The state at the loop of `PrintECR`. -/
def fineInitial (m : ECRModule) : FineState :=
  { m := m, toStart := m.AWSRegions, wg := 0, semaphore := 0,
    capacity := m.Goroutines, workers := [], joined := false }

/-- A permit is held at these places. -/
def FinePC.holdsPermit : FinePC → Bool
  | .fetch => true
  | .errLoad1 _ => true
  | .errStore1 _ _ => true
  | .errLog _ => true
  | .errLoad2 => true
  | .errStore2 _ => true
  | .send _ => true
  | .release => true
  | _ => false

/-- The store of `Total`. -/
def ECRModule.setTotal (m : ECRModule) (v : Int) : ECRModule :=
  { m with CommandCounter := { m.CommandCounter with Total := v } }

/-- The store of `Error`. -/
def ECRModule.setError (m : ECRModule) (v : Int) : ECRModule :=
  { m with CommandCounter := { m.CommandCounter with Error := v } }

/-- The store of `Executing`. -/
def ECRModule.setExecuting (m : ECRModule) (v : Int) : ECRModule :=
  { m with CommandCounter := { m.CommandCounter with Executing := v } }

/-- The store of `Complete`. -/
def ECRModule.setComplete (m : ECRModule) (v : Int) : ECRModule :=
  { m with CommandCounter := { m.CommandCounter with Complete := v } }

/-- One step of the goroutine of `PrintECR`, as in `stepMain`. -/
def fineStepMain (s : FineState) : FineState :=
  match s.toStart with
  | region :: rest =>
    { s with
      toStart := rest
      wg := s.wg + 1
      m := { s.m with CommandCounter :=
        { s.m.CommandCounter with Pending := s.m.CommandCounter.Pending + 1 } }
      workers := s.workers ++ [{ region := region, pc := .checks }] }
  | [] => if s.wg = 0 then { s with joined := true } else s

/-- One step of worker `i`; a worker that is blocked or has ended leaves the
state as it is. -/
def fineStepWorker (env : Env) (s : FineState) (i : Nat) : FineState :=
  match s.workers[i]? with
  | none => s
  | some w =>
    match w.pc with
    | .checks =>
      let res := env.IsServiceInRegion "ecr" w.region
      let m1 := s.m.logIfError res.2
      if res.1 then
        { s with m := m1, workers := s.workers.set i { w with pc := .totalLoad } }
      else
        { s with m := m1, wg := s.wg - 1, workers := s.workers.set i { w with pc := .done } }
    | .totalLoad =>
      { s with workers := s.workers.set i { w with pc := .totalStore s.m.CommandCounter.Total } }
    | .totalStore v =>
      { s with m := s.m.setTotal (v + 1), workers := s.workers.set i { w with pc := .wgAdd } }
    | .wgAdd =>
      { s with wg := s.wg + 1, workers := s.workers.set i { w with pc := .acquire } }
    | .acquire =>
      if s.semaphore < s.capacity then
        { s with semaphore := s.semaphore + 1, workers := s.workers.set i { w with pc := .fetch } }
      else s
    | .fetch =>
      match fetchOutcome env s.m.Account w.region with
      | .error err => { s with workers := s.workers.set i { w with pc := .errLoad1 err } }
      | .ok (some rec) => { s with workers := s.workers.set i { w with pc := .send rec } }
      | .ok none => { s with workers := s.workers.set i { w with pc := .release } }
    | .errLoad1 err =>
      { s with workers := s.workers.set i { w with pc := .errStore1 err s.m.CommandCounter.Error } }
    | .errStore1 err v =>
      { s with m := s.m.setError (v + 1), workers := s.workers.set i { w with pc := .errLog err } }
    | .errLog err =>
      { s with m := s.m.logError err, workers := s.workers.set i { w with pc := .errLoad2 } }
    | .errLoad2 =>
      { s with workers := s.workers.set i { w with pc := .errStore2 s.m.CommandCounter.Error } }
    | .errStore2 v =>
      { s with m := s.m.setError (v + 1), workers := s.workers.set i { w with pc := .release } }
    | .send rec =>
      { s with m := s.m.receive rec, workers := s.workers.set i { w with pc := .release } }
    | .release =>
      { s with semaphore := s.semaphore - 1, workers := s.workers.set i { w with pc := .execLoad } }
    | .execLoad =>
      { s with
        workers := s.workers.set i { w with pc := .execStore s.m.CommandCounter.Executing } }
    | .execStore v =>
      { s with
        m := s.m.setExecuting (v - 1)
        workers := s.workers.set i { w with pc := .compLoad } }
    | .compLoad =>
      { s with workers := s.workers.set i { w with pc := .compStore s.m.CommandCounter.Complete } }
    | .compStore v =>
      { s with m := s.m.setComplete (v + 1), workers := s.workers.set i { w with pc := .wgDone } }
    | .wgDone =>
      { s with wg := s.wg - 1, workers := s.workers.set i { w with pc := .returned } }
    | .returned =>
      { s with wg := s.wg - 1, workers := s.workers.set i { w with pc := .done } }
    | .done => s

/-- One step of the run: thread `0` is `PrintECR`, thread `i + 1` is the
worker of the `i`-th region. -/
def fineStep (env : Env) (s : FineState) : Nat → FineState
  | 0 => fineStepMain s
  | i + 1 => fineStepWorker env s i

/-- The run under a schedule, the list of the threads that step in turn. -/
def fineRun (env : Env) (s : FineState) (sched : List Nat) : FineState :=
  sched.foldl (fineStep env) s

/-- The run of `PrintECR` on module `m` under a schedule, up to `wg.Wait()`,
with the counter updates split. -/
def PrintECRFine (env : Env) (m : ECRModule) (sched : List Nat) : FineState :=
  fineRun env (fineInitial m) sched

/-- The number of workers between the acquisition and the release of a permit. -/
def FineState.inFetchPhase (s : FineState) : Nat :=
  s.workers.countP (fun w => w.pc.holdsPermit)

/-- The schedule that starts `n` workers, runs them to their end one after the
other (a worker takes at most eighteen steps) and then lets `wg.Wait()`
return. -/
def fineSequentialSchedule (n : Nat) : List Nat :=
  List.replicate n 0 ++ (List.range n).flatMap (fun i => List.replicate 18 (i + 1)) ++ [0]

/-! ## Auxiliary definitions of the proofs -/

/-- The sum of `f` over a list of workers. -/
def sumBy {α : Type} (f : α → Int) (ws : List α) : Int := (ws.map f).sum

/-- The invariant of the semaphore in a run started on module `m0`: the items
in the channel are the permits the workers hold. Sends and receives on a
channel are synchronised, so the invariant does not depend on how the
statements on the counter interleave. -/
structure Inv (env : Env) (m0 : ECRModule) (s : RunState) : Prop where
  capacity : s.capacity = m0.Goroutines
  sem : (s.semaphore : Int) = sumBy (fun w => if w.pc.holdsPermit then 1 else 0) s.workers
  semLe : s.semaphore ≤ s.capacity

/-- The values of the locals after the loop of a fetch that succeeds: all the
images of the region, and the URI and name of its last repository. -/
def regionLocals (env : Env) (account : Option String) (r : String) : Locals :=
  { allImages := regionImages env account r
    repoURI := ToString ((regionRepositories env account r).getLast?.bind fun x => x.RepositoryUri)
    repoName :=
      ToString ((regionRepositories env account r).getLast?.bind fun x => x.RepositoryName) }

/-! ## The run with the counter updates split: what the workers have done -/

/-- The values an `int` of the counter can take without a `++` or `--` of the
run wrapping around: the run starts with every field between `-2^62` and
`2^62`. -/
@[reducible] def CommandCounter.inRange (c : CommandCounter) : Prop :=
  (-(2 : Int) ^ 62 ≤ c.Total ∧ c.Total ≤ 2 ^ 62) ∧
  (-(2 : Int) ^ 62 ≤ c.Pending ∧ c.Pending ≤ 2 ^ 62) ∧
  (-(2 : Int) ^ 62 ≤ c.Complete ∧ c.Complete ≤ 2 ^ 62) ∧
  (-(2 : Int) ^ 62 ≤ c.Error ∧ c.Error ≤ 2 ^ 62) ∧
  (-(2 : Int) ^ 62 ≤ c.Executing ∧ c.Executing ≤ 2 ^ 62)

/-- Every field is a value of Go's 64-bit `int`. -/
@[reducible] def CommandCounter.isInt64 (c : CommandCounter) : Prop :=
  (-(2 : Int) ^ 63 ≤ c.Total ∧ c.Total < 2 ^ 63) ∧
  (-(2 : Int) ^ 63 ≤ c.Pending ∧ c.Pending < 2 ^ 63) ∧
  (-(2 : Int) ^ 63 ≤ c.Complete ∧ c.Complete < 2 ^ 63) ∧
  (-(2 : Int) ^ 63 ≤ c.Error ∧ c.Error < 2 ^ 63) ∧
  (-(2 : Int) ^ 63 ≤ c.Executing ∧ c.Executing < 2 ^ 63)

/-- The calls of `wg.Done()` the worker still owes. -/
def FineWorker.owes (w : FineWorker) : Int :=
  match w.pc with
  | .checks => 1
  | .totalLoad => 1
  | .totalStore _ => 1
  | .wgAdd => 1
  | .returned => 1
  | .done => 0
  | _ => 2

/-- The stores of `Total++` the worker has executed. -/
def FineWorker.totalStores (env : Env) (w : FineWorker) : Int :=
  match w.pc with
  | .checks => 0
  | .totalLoad => 0
  | .totalStore _ => 0
  | .done => if available env w.region then 1 else 0
  | _ => 1

/-- The stores of `Executing--` the worker has executed. -/
def FineWorker.execStores (env : Env) (w : FineWorker) : Int :=
  match w.pc with
  | .compLoad => 1
  | .compStore _ => 1
  | .wgDone => 1
  | .returned => 1
  | .done => if available env w.region then 1 else 0
  | _ => 0

/-- The stores of `Complete++` the worker has executed. -/
def FineWorker.compStores (env : Env) (w : FineWorker) : Int :=
  match w.pc with
  | .wgDone => 1
  | .returned => 1
  | .done => if available env w.region then 1 else 0
  | _ => 0

/-- The stores of `Error++` the worker has executed: none before its fetch
and after a fetch that succeeds, two after a fetch that has failed. -/
def FineWorker.errStores (env : Env) (account : Option String) (w : FineWorker) : Int :=
  match w.pc with
  | .checks => 0
  | .totalLoad => 0
  | .totalStore _ => 0
  | .wgAdd => 0
  | .acquire => 0
  | .fetch => 0
  | .errLoad1 _ => 0
  | .errStore1 _ _ => 0
  | .errLog _ => 1
  | .errLoad2 => 1
  | .errStore2 _ => 1
  | .send _ => 0
  | .done => if available env w.region && !fetchSucceeds env account w.region then 2 else 0
  | _ => if fetchSucceeds env account w.region then 0 else 2

/-- The value a worker at the store of `Total++` has loaded. -/
def FinePC.totalReg : FinePC → Option Int
  | .totalStore v => some v
  | _ => none

/-- The value a worker at a store of `Error++` has loaded. -/
def FinePC.errReg : FinePC → Option Int
  | .errStore1 _ v => some v
  | .errStore2 v => some v
  | _ => none

/-- The value a worker at the store of `Executing--` has loaded, negated. -/
def FinePC.execReg : FinePC → Option Int
  | .execStore v => some (-v)
  | _ => none

/-- The value a worker at the store of `Complete++` has loaded. -/
def FinePC.compReg : FinePC → Option Int
  | .compStore v => some v
  | _ => none

/-- What is known of a field that starts at `base` and that the workers raise
by unsynchronised `++`: it is not below `base`, it is above `base` once a
store has been executed, it is not above `base` plus the number of stores
executed, and the same bounds hold for the values loaded and not yet stored.
An update can be lost, so the field need not count the stores. -/
def Lossy (base val : Int) (stores : FineWorker → Int) (reg : FinePC → Option Int)
    (ws : List FineWorker) : Prop :=
  base ≤ val ∧ val ≤ base + sumBy stores ws ∧ (0 < sumBy stores ws → base + 1 ≤ val) ∧
  ∀ w ∈ ws, ∀ v, reg w.pc = some v → base ≤ v ∧ v ≤ base + sumBy stores ws

/-- What a step of a worker does to a field under `Lossy`: the field, the
stores executed by the worker and its loaded value before (`val`, `d`, `r`)
and after (`val1`, `d1`, `r1`) the step. Either the field and the stores are
as before, or the worker stores the value it had loaded plus one; and a value
loaded after the step is the field or the value loaded before. -/
def LossyStep (val val1 d d1 : Int) (r r1 : Option Int) : Prop :=
  ((val1 = val ∧ d1 = d) ∨ (∃ v, r = some v ∧ val1 = v + 1 ∧ d1 = d + 1)) ∧
  ∀ v, r1 = some v → v = val ∨ r = some v

/-- What the place of a worker says about its region: a worker past the
availability check has an available region, a worker on the error path has a
failing fetch, a worker about to send holds the record of its region, and a
worker past the body of `getECRRecordsPerRegion` is there by one of the two. -/
def FineWorker.consistent (env : Env) (account : Option String) (w : FineWorker) : Prop :=
  match w.pc with
  | .checks => True
  | .done => True
  | .errLoad1 _ => available env w.region = true ∧ fetchSucceeds env account w.region = false
  | .errStore1 _ _ => available env w.region = true ∧ fetchSucceeds env account w.region = false
  | .errLog _ => available env w.region = true ∧ fetchSucceeds env account w.region = false
  | .errLoad2 => available env w.region = true ∧ fetchSucceeds env account w.region = false
  | .errStore2 _ => available env w.region = true ∧ fetchSucceeds env account w.region = false
  | .send rec => available env w.region = true ∧ fetchSucceeds env account w.region = true ∧
      fetchRecord env account w.region = some rec
  | _ => available env w.region = true

/-- The invariant of a run, with the counter updates split, started on module
`m0`. -/
structure FInv (env : Env) (m0 : ECRModule) (s : FineState) : Prop where
  account : s.m.Account = m0.Account
  regions : s.workers.map (fun w => w.region) ++ s.toStart = m0.AWSRegions
  capacity : s.capacity = m0.Goroutines
  pending : s.m.CommandCounter.Pending = m0.CommandCounter.Pending + s.workers.length
  total : Lossy m0.CommandCounter.Total s.m.CommandCounter.Total
    (FineWorker.totalStores env) FinePC.totalReg s.workers
  executing : Lossy (-m0.CommandCounter.Executing) (-s.m.CommandCounter.Executing)
    (FineWorker.execStores env) FinePC.execReg s.workers
  complete : Lossy m0.CommandCounter.Complete s.m.CommandCounter.Complete
    (FineWorker.compStores env) FinePC.compReg s.workers
  error : Lossy m0.CommandCounter.Error s.m.CommandCounter.Error
    (FineWorker.errStores env m0.Account) FinePC.errReg s.workers
  wg : s.wg = sumBy FineWorker.owes s.workers
  sem : (s.semaphore : Int) = sumBy (fun w => if w.pc.holdsPermit then 1 else 0) s.workers
  semLe : s.semaphore ≤ s.capacity
  consistent : ∀ w ∈ s.workers, w.consistent env m0.Account
  records : ∀ rec ∈ s.m.Repositories, rec ∈ m0.Repositories ∨
    ∃ r ∈ s.workers.map (fun w => w.region),
      available env r = true ∧ fetchRecord env m0.Account r = some rec
  joined : s.joined = true → s.toStart = [] ∧ s.wg = 0

/-- The number of steps a worker at this place has left at most. -/
def FinePC.rank : FinePC → Int
  | .checks => 18
  | .totalLoad => 17
  | .totalStore _ => 16
  | .wgAdd => 15
  | .acquire => 14
  | .fetch => 13
  | .errLoad1 _ => 12
  | .errStore1 _ _ => 11
  | .errLog _ => 10
  | .errLoad2 => 9
  | .errStore2 _ => 8
  | .send _ => 8
  | .release => 7
  | .execLoad => 6
  | .execStore _ => 5
  | .compLoad => 4
  | .compStore _ => 3
  | .wgDone => 2
  | .returned => 1
  | .done => 0

/-- A bound on the number of steps left before `wg.Wait()` has returned. -/
def FineState.measure (s : FineState) : Int :=
  19 * s.toStart.length + sumBy (fun w => w.pc.rank) s.workers + (if s.joined then 0 else 1)

/-! ## Auxiliary definitions: sorted slices and the insertion sort on lists -/

/-- The slice is sorted for `less`: no element is less than an earlier one. -/
@[reducible]
def SortedBy {α : Type} (less : α → α → Bool) (l : List α) : Prop :=
  l.Pairwise fun a b => less b a = false

/-- The inner loop of the insertion sort on the sorted prefix held in reverse
(greatest element first): `x` moves left past the elements it is less than. -/
def insertLeft {α : Type} (less : α → α → Bool) (x : α) : List α → List α
  | [] => [x]
  | p :: ps => if less x p then p :: insertLeft less x ps else x :: p :: ps

/-- The last of the greatest elements of `x0 :: rest`: the running maximum,
replaced by every later element that is not less than it. -/
def lastMax {α : Type} (less : α → α → Bool) (x0 : α) (rest : List α) : α :=
  rest.foldl (fun best x => if less x best then best else x) x0

/-! ## Concrete inputs -/

/-- An image pushed on the first of January of `year` at midnight. -/
def imageOf (year : Int) (tag : String) (size : Int) : ImageDetail :=
  { ImagePushedAt := { year := year, month := 0, day := 0, hour := 0, minute := 0, second := 0 }
    ImageTags := [tag]
    ImageSizeInBytes := some size }

/-- An environment with five regions: `"a"` has one repository with three
images, `"b"` has no repository, DescribeRepositories fails in `"c"`, the
lookup fails for `"d"` with `false` and for `"e"` with `true`, and every other
region is absent. `sort.Slice` is the library function. -/
def sampleEnv : Env where
  IsServiceInRegion := fun _ r =>
    if r = "a" ∨ r = "b" ∨ r = "c" then (true, none)
    else if r = "d" then (false, some "lookup failed")
    else if r = "e" then (true, some "lookup failed")
    else (false, none)
  CachedECRDescribeRepositories := fun _ r =>
    if r = "a" then .ok [{ RepositoryName := some "app", RepositoryUri := some "registry/app" }]
    else if r = "c" then .error "access denied"
    else .ok []
  CachedECRDescribeImages := fun _ _ _ =>
    .ok [imageOf 2021 "v2" 20, imageOf 2022 "v3" 30, imageOf 2020 "v1" 10]
  sortSlice := Slice

/-- A module with a zeroed counter, an empty inventory and one permit. -/
def sampleModule (regions : List String) : ECRModule :=
  { Account := some "123456789012", AWSRegions := regions, Goroutines := 1, Repositories := [],
    CommandCounter := { Total := 0, Pending := 0, Complete := 0, Error := 0, Executing := 0 },
    modLog := [] }

/-- A Route53 client with one public hosted zone whose record sets come in two
pages: the first call of `ListResourceRecordSets` returns the record set of
`a.example.com.` with `IsTruncated` set, the call that starts from
`NextRecordName` returns the record set of `b.example.com.`. -/
def truncatedClient : Route53Client where
  ListHostedZones := fun _ =>
    .ok { HostedZones := [{ Id := some "/hostedzone/Z1", PrivateZone := false }],
          NextMarker := none }
  ListResourceRecordSets := fun input =>
    match input.StartRecordName with
    | none =>
      .ok { ResourceRecordSets :=
              [{ Name := some "a.example.com.", RecordType := "A",
                 ResourceRecords := [{ Value := some "192.0.2.1" }] }],
            IsTruncated := true, NextRecordName := some "b.example.com." }
    | some _ =>
      .ok { ResourceRecordSets :=
              [{ Name := some "b.example.com.", RecordType := "A",
                 ResourceRecords := [{ Value := some "192.0.2.2" }] }],
            IsTruncated := false, NextRecordName := none }

/-- A Route53 module with no record and a zeroed counter. -/
def emptyRoute53Module : Route53Module :=
  { Records := [],
    CommandCounter := { Total := 0, Pending := 0, Complete := 0, Error := 0, Executing := 0 },
    modLog := [] }

/-- The thirteen images of the region of `tieEnv`, in the order the API
produces them: the second and the third share the latest push time. -/
def tieImages : List ImageDetail :=
  [imageOf 2021 "p0" 1, imageOf 2022 "first" 2, imageOf 2022 "second" 3, imageOf 2021 "p3" 4,
   imageOf 2021 "p4" 5, imageOf 2021 "p5" 6, imageOf 2021 "p6" 7, imageOf 2021 "p7" 8,
   imageOf 2021 "p8" 9, imageOf 2021 "p9" 10, imageOf 2021 "p10" 11, imageOf 2020 "l11" 12,
   imageOf 2020 "l12" 13]

/-- An environment whose regions all have one repository with the images
`tieImages`; `sort.Slice` is the library function. -/
def tieEnv : Env where
  IsServiceInRegion := fun _ _ => (true, none)
  CachedECRDescribeRepositories := fun _ _ =>
    .ok [{ RepositoryName := some "app", RepositoryUri := some "registry/app" }]
  CachedECRDescribeImages := fun _ _ _ => .ok tieImages
  sortSlice := Slice

/-- An environment with two repositories in every region: `"old"` with one
image pushed in 2023 and `"new"` with one image pushed in 2020. -/
def twoRepositoriesEnv : Env where
  IsServiceInRegion := fun _ _ => (true, none)
  CachedECRDescribeRepositories := fun _ _ =>
    .ok [{ RepositoryName := some "old", RepositoryUri := some "registry/old" },
         { RepositoryName := some "new", RepositoryUri := some "registry/new" }]
  CachedECRDescribeImages := fun _ _ repoName =>
    if repoName = "old" then .ok [imageOf 2023 "stable" 7] else .ok [imageOf 2020 "beta" 9]
  sortSlice := Slice

/-- An environment whose regions all have one repository with the first twelve
of the images `tieImages`: the second and the third share the latest push
time; `sort.Slice` is the library function. -/
def shortTieEnv : Env where
  IsServiceInRegion := fun _ _ => (true, none)
  CachedECRDescribeRepositories := fun _ _ =>
    .ok [{ RepositoryName := some "app", RepositoryUri := some "registry/app" }]
  CachedECRDescribeImages := fun _ _ _ => .ok (tieImages.take 12)
  sortSlice := Slice

/-- A schedule of the run over two regions whose fetches succeed, with one
permit: `PrintECR` starts both workers; the first worker runs up to its load of
`Complete` in the deferred function (eleven steps, the permit given back on the
way), the second worker does the same (ten steps, its fetch finds no image);
then each of them stores the value it has loaded plus one and runs to its end,
and `wg.Wait()` returns. -/
def lostUpdateSchedule : List Nat :=
  [0, 0] ++ List.replicate 11 1 ++ List.replicate 10 2 ++ [1, 1, 1, 2, 2, 2, 0]

/-! # Theorems -/

/-! ## Lemmas: the fetch of one region and the invariant of a run -/

theorem imagesLoop_eq (env : Env) (r : String) (repos : List RepositoryDetail) (m : ECRModule)
    (v : Locals) :
    imagesLoop env r repos m v =
      match loopOutcome env m.Account r repos v with
      | .ok v1 => (m, some v1)
      | .error err => (m.failed err, none) := by
  induction repos generalizing v with
  | nil => simp [imagesLoop, loopOutcome]
  | cons repo rest ih =>
    simp only [imagesLoop, loopOutcome, describeImages]
    cases h : env.CachedECRDescribeImages (ToString m.Account) r (ToString repo.RepositoryName) with
    | error err => simp [ECRModule.failed]
    | ok images => simpa using ih _

theorem fetchPhase_eq (env : Env) (m : ECRModule) (r : String) :
    fetchPhase env m r =
      match fetchOutcome env m.Account r with
      | .ok o => (m, o)
      | .error err => (m.failed err, none) := by
  simp only [fetchPhase, fetchOutcome, describeRepositories]
  cases h : env.CachedECRDescribeRepositories (ToString m.Account) r with
  | error err => simp [ECRModule.failed]
  | ok repos =>
    simp only [List.nil_append, imagesLoop_eq]
    cases h2 : loopOutcome env m.Account r repos { allImages := [], repoURI := "", repoName := "" } with
    | error err => simp
    | ok v =>
      simp only
      cases h3 : selectImage (env.sortSlice pushedAtLess v.allImages) <;> simp

theorem fetchRecord_eq (env : Env) (account : Option String) (r : String) :
    fetchRecord env account r =
      match fetchOutcome env account r with
      | .ok o => o
      | .error _ => none := by
  simp only [fetchRecord, fetchPhase_eq, blank]
  cases fetchOutcome env account r <;> simp

theorem fetchErrors_eq (env : Env) (account : Option String) (r : String) :
    fetchErrors env account r =
      match fetchOutcome env account r with
      | .ok _ => 0
      | .error _ => 2 := by
  simp only [fetchErrors, fetchPhase_eq, blank]
  cases fetchOutcome env account r <;>
    simp [ECRModule.failed, ECRModule.incError, ECRModule.logError]

/-- The module after a fetch: `Error` raised by `fetchErrors`, the log
extended by `fetchLog`, everything else as before. -/
theorem fetchPhase_fst (env : Env) (m : ECRModule) (r : String) :
    (fetchPhase env m r).1 =
      { m with
        CommandCounter := { m.CommandCounter with
          Error := m.CommandCounter.Error + fetchErrors env m.Account r }
        modLog := m.modLog ++ fetchLog env m.Account r } := by
  simp only [fetchErrors, fetchLog, fetchPhase_eq, blank]
  cases fetchOutcome env m.Account r <;>
    simp [ECRModule.failed, ECRModule.incError, ECRModule.logError]
  omega

theorem fetchPhase_snd (env : Env) (m : ECRModule) (r : String) :
    (fetchPhase env m r).2 = fetchRecord env m.Account r := by
  simp only [fetchRecord, fetchPhase_eq, blank]
  cases fetchOutcome env m.Account r <;> simp


theorem sumBy_nil {α : Type} (f : α → Int) : sumBy f [] = 0 := rfl

theorem sumBy_cons {α : Type} (f : α → Int) (w : α) (ws : List α) :
    sumBy f (w :: ws) = f w + sumBy f ws := by
  simp [sumBy]

theorem sumBy_append {α : Type} (f : α → Int) (ws vs : List α) :
    sumBy f (ws ++ vs) = sumBy f ws + sumBy f vs := by
  simp [sumBy]

theorem sumBy_set {α : Type} (f : α → Int) (ws : List α) (i : Nat) (w w1 : α)
    (h : ws[i]? = some w) : sumBy f (ws.set i w1) = sumBy f ws - f w + f w1 := by
  induction ws generalizing i with
  | nil => simp at h
  | cons v vs ih =>
    cases i with
    | zero =>
      simp at h
      subst h
      simp [sumBy_cons]
      omega
    | succ j =>
      simp at h
      simp [sumBy_cons, ih j h]
      omega

theorem sumBy_eq_zero {α : Type} (f : α → Int) (ws : List α) (h : ∀ w ∈ ws, f w = 0) :
    sumBy f ws = 0 := by
  induction ws with
  | nil => rfl
  | cons v vs ih =>
    rw [sumBy_cons, h v (by simp), ih (fun w hw => h w (by simp [hw]))]
    rfl

theorem sumBy_nonneg {α : Type} (f : α → Int) (ws : List α) (h : ∀ w ∈ ws, 0 ≤ f w) :
    0 ≤ sumBy f ws := by
  unfold sumBy
  apply List.sum_nonneg
  intro x hx
  simp at hx
  obtain ⟨u, hu, rfl⟩ := hx
  exact h u hu

theorem sumBy_pos {α : Type} (f : α → Int) (ws : List α) (h : ∀ w ∈ ws, 0 ≤ f w) (w : α)
    (hw : w ∈ ws) (hpos : 1 ≤ f w) : 1 ≤ sumBy f ws := by
  induction ws with
  | nil => simp at hw
  | cons v vs ih =>
    rw [sumBy_cons]
    have hnn := sumBy_nonneg f vs (fun u hu => h u (by simp [hu]))
    have hv := h v (by simp)
    simp at hw
    rcases hw with rfl | hw
    · omega
    · have := ih (fun u hu => h u (by simp [hu])) hw
      omega

theorem mem_of_getElem? {α : Type} {ws : List α} {i : Nat} {w : α} (h : ws[i]? = some w) :
    w ∈ ws := by
  rw [List.getElem?_eq_some] at h
  obtain ⟨hi, rfl⟩ := h
  exact List.getElem_mem hi

theorem mem_set {α : Type} {ws : List α} {i : Nat} {w1 v : α} (h : v ∈ ws.set i w1) :
    v = w1 ∨ v ∈ ws := by
  rcases List.mem_or_eq_of_mem_set h with h | h
  · exact Or.inr h
  · exact Or.inl h

theorem getElem?_set_self_of_some {α : Type} {ws : List α} {i : Nat} {w v : α}
    (h : ws[i]? = some w) : (ws.set i v)[i]? = some v := by
  have hi : i < ws.length := (List.getElem?_eq_some.mp h).1
  simp [hi]

/-! ## Lemmas: the semaphore -/

theorem inv_initial (env : Env) (m0 : ECRModule) : Inv env m0 (initial m0) := by
  constructor <;> simp [initial, sumBy]

theorem inv_stepMain (env : Env) (m0 : ECRModule) (s : RunState) (h : Inv env m0 s) :
    Inv env m0 (stepMain s) := by
  unfold stepMain
  split
  · constructor
    · exact h.capacity
    · simp [sumBy_append, sumBy_cons, sumBy_nil, PC.holdsPermit]; exact h.sem
    · exact h.semLe
  · split
    · exact ⟨h.capacity, h.sem, h.semLe⟩
    · exact h

theorem inv_update (env : Env) (m0 : ECRModule) (s t : RunState) (i : Nat) (w : Worker) (p : PC)
    (h : Inv env m0 s) (hw : s.workers[i]? = some w)
    (hworkers : t.workers = s.workers.set i { w with pc := p })
    (hcap : t.capacity = s.capacity)
    (hsem : (t.semaphore : Int) = s.semaphore - (if w.pc.holdsPermit then 1 else 0)
      + (if p.holdsPermit then 1 else 0))
    (hsemLe : t.semaphore ≤ t.capacity) :
    Inv env m0 t := by
  constructor
  · rw [hcap, h.capacity]
  · rw [hsem, h.sem, hworkers, sumBy_set _ _ _ _ _ hw]
  · exact hsemLe

theorem sumBy_permit_pos (ws : List Worker) (w : Worker) (hw : w ∈ ws)
    (hp : w.pc.holdsPermit = true) :
    1 ≤ sumBy (fun w => if w.pc.holdsPermit then 1 else 0) ws := by
  induction ws with
  | nil => simp at hw
  | cons v vs ih =>
    rw [sumBy_cons]
    have hnn : 0 ≤ sumBy (fun w => if w.pc.holdsPermit then 1 else 0) vs := by
      unfold sumBy
      apply List.sum_nonneg
      intro x hx
      simp at hx
      obtain ⟨u, _, rfl⟩ := hx
      split <;> omega
    simp at hw
    rcases hw with rfl | hw
    · simp [hp]
      omega
    · have := ih hw
      split <;> omega

theorem inv_stepWorker (env : Env) (m0 : ECRModule) (s : RunState) (i : Nat)
    (h : Inv env m0 s) : Inv env m0 (stepWorker env s i) := by
  unfold stepWorker
  split
  · exact h
  · rename_i w hw
    have hmem := mem_of_getElem? hw
    have hsl := h.semLe
    have hsem := h.sem
    split
    · -- checks
      rename_i hpc
      cases hres : (env.IsServiceInRegion "ecr" w.region).1 <;>
        simp only [hres] <;>
        apply inv_update env m0 s _ i w _ h hw rfl <;>
        simp [PC.holdsPermit, hpc, hsl]
    · -- acquire
      rename_i hpc
      split
      · rename_i hlt
        apply inv_update env m0 s _ i w _ h hw rfl <;>
          simp [PC.holdsPermit, hpc, hsl] <;>
          omega
      · exact h
    · -- fetch
      rename_i hpc
      split <;>
        apply inv_update env m0 s _ i w _ h hw rfl <;>
        simp [PC.holdsPermit, hpc, hsl]
    · -- send
      rename_i rec hpc
      apply inv_update env m0 s _ i w _ h hw rfl <;>
        simp [PC.holdsPermit, hpc, hsl]
    · -- release
      rename_i hpc
      have hpos := sumBy_permit_pos s.workers w hmem (by simp [hpc, PC.holdsPermit])
      apply inv_update env m0 s _ i w _ h hw rfl <;>
        simp [PC.holdsPermit, hpc, hsl] <;>
        omega
    · -- deferred
      rename_i hpc
      apply inv_update env m0 s _ i w _ h hw rfl <;>
        simp [PC.holdsPermit, hpc, hsl]
    · -- returned
      rename_i hpc
      apply inv_update env m0 s _ i w _ h hw rfl <;>
        simp [PC.holdsPermit, hpc, hsl]
    · exact h

theorem inv_step (env : Env) (m0 : ECRModule) (s : RunState) (t : Nat) (h : Inv env m0 s) :
    Inv env m0 (step env s t) := by
  cases t with
  | zero => exact inv_stepMain env m0 s h
  | succ i => exact inv_stepWorker env m0 s i h

theorem inv_run (env : Env) (m0 : ECRModule) (s : RunState) (sched : List Nat)
    (h : Inv env m0 s) : Inv env m0 (run env s sched) := by
  induction sched generalizing s with
  | nil => exact h
  | cons t rest ih => exact ih (step env s t) (inv_step env m0 s t h)

theorem inv_PrintECR (env : Env) (m : ECRModule) (sched : List Nat) :
    Inv env m (PrintECR env m sched) :=
  inv_run env m (initial m) sched (inv_initial env m)

theorem sumBy_permit_eq_countP (ws : List Worker) :
    sumBy (fun w => if w.pc.holdsPermit then 1 else 0) ws =
      (ws.countP (fun w => w.pc.holdsPermit) : Nat) := by
  induction ws with
  | nil => simp [sumBy_nil]
  | cons v vs ih =>
    rw [sumBy_cons, ih, List.countP_cons]
    cases v.pc.holdsPermit <;> simp
    omega

theorem inFetchPhase_eq_semaphore (env : Env) (m0 : ECRModule) (s : RunState)
    (h : Inv env m0 s) : s.inFetchPhase = s.semaphore := by
  have h1 := h.sem
  rw [sumBy_permit_eq_countP] at h1
  unfold RunState.inFetchPhase
  omega

/-! ## Lemmas: the outcome of a fetch -/

theorem loopOutcome_ok (env : Env) (account : Option String) (r : String)
    (repos : List RepositoryDetail) (v : Locals)
    (h : (repos.all fun repo =>
      match env.CachedECRDescribeImages (ToString account) r (ToString repo.RepositoryName) with
      | .error _ => false
      | .ok _ => true) = true) :
    loopOutcome env account r repos v = .ok
      { allImages := v.allImages ++ repos.flatMap (repositoryImages env account r)
        repoURI := (repos.getLast?.map fun x => ToString x.RepositoryUri).getD v.repoURI
        repoName := (repos.getLast?.map fun x => ToString x.RepositoryName).getD v.repoName } := by
  induction repos generalizing v with
  | nil => simp [loopOutcome]
  | cons repo rest ih =>
    simp only [List.all_cons, Bool.and_eq_true] at h
    obtain ⟨h1, h2⟩ := h
    simp only [loopOutcome]
    cases hc : env.CachedECRDescribeImages (ToString account) r (ToString repo.RepositoryName) with
    | error err => simp [hc] at h1
    | ok images =>
      simp only []
      rw [ih _ h2]
      cases rest with
      | nil => simp [repositoryImages, hc]
      | cons x xs =>
        cases hl : (x :: xs).getLast? with
        | none => simp at hl
        | some y => simp [repositoryImages, hc, List.getLast?_cons_cons, hl]

theorem loopOutcome_error (env : Env) (account : Option String) (r : String)
    (repos : List RepositoryDetail) (v : Locals)
    (h : (repos.all fun repo =>
      match env.CachedECRDescribeImages (ToString account) r (ToString repo.RepositoryName) with
      | .error _ => false
      | .ok _ => true) = false) :
    ∃ err, loopOutcome env account r repos v = .error err := by
  induction repos generalizing v with
  | nil => simp at h
  | cons repo rest ih =>
    simp only [loopOutcome]
    cases hc : env.CachedECRDescribeImages (ToString account) r (ToString repo.RepositoryName) with
    | error err => exact ⟨err, rfl⟩
    | ok images =>
      simp only [List.all_cons, hc, Bool.true_and] at h
      exact ih _ h

theorem fetchOutcome_of_succeeds (env : Env) (account : Option String) (r : String)
    (h : fetchSucceeds env account r = true) :
    fetchOutcome env account r = .ok
      ((selectImage (env.sortSlice pushedAtLess (regionImages env account r))).map
        (buildRecord r (regionLocals env account r))) := by
  unfold fetchSucceeds at h
  unfold fetchOutcome regionLocals regionImages regionRepositories
  cases hc : env.CachedECRDescribeRepositories (ToString account) r with
  | error err => simp [hc] at h
  | ok repos =>
    simp only [hc] at h
    simp only [loopOutcome_ok env account r repos _ h]
    cases repos with
    | nil => simp [ToString]
    | cons x xs =>
      cases hl : (x :: xs).getLast? with
      | none => simp at hl
      | some y => simp [ToString]

theorem fetchOutcome_of_fails (env : Env) (account : Option String) (r : String)
    (h : fetchSucceeds env account r = false) :
    ∃ err, fetchOutcome env account r = .error err := by
  unfold fetchSucceeds at h
  unfold fetchOutcome
  cases hc : env.CachedECRDescribeRepositories (ToString account) r with
  | error err => exact ⟨err, rfl⟩
  | ok repos =>
    simp only [hc] at h
    obtain ⟨err, he⟩ := loopOutcome_error env account r repos
      { allImages := [], repoURI := "", repoName := "" } h
    exact ⟨err, by simp [he]⟩

theorem fetchErrors_of_succeeds (env : Env) (account : Option String) (r : String)
    (h : fetchSucceeds env account r = true) : fetchErrors env account r = 0 := by
  rw [fetchErrors_eq, fetchOutcome_of_succeeds env account r h]

theorem fetchErrors_of_fails (env : Env) (account : Option String) (r : String)
    (h : fetchSucceeds env account r = false) : fetchErrors env account r = 2 := by
  obtain ⟨err, he⟩ := fetchOutcome_of_fails env account r h
  rw [fetchErrors_eq, he]

theorem fetchRecord_of_fails (env : Env) (account : Option String) (r : String)
    (h : fetchSucceeds env account r = false) : fetchRecord env account r = none := by
  obtain ⟨err, he⟩ := fetchOutcome_of_fails env account r h
  rw [fetchRecord_eq, he]

theorem fetchRecord_of_succeeds (env : Env) (account : Option String) (r : String)
    (h : fetchSucceeds env account r = true) :
    fetchRecord env account r =
      (selectImage (env.sortSlice pushedAtLess (regionImages env account r))).map
        (buildRecord r (regionLocals env account r)) := by
  rw [fetchRecord_eq, fetchOutcome_of_succeeds env account r h]

theorem fetchRecord_region (env : Env) (account : Option String) (r : String)
    (rec : Repository) (h : fetchRecord env account r = some rec) : rec.Region = r := by
  rw [fetchRecord_eq] at h
  unfold fetchOutcome at h
  cases hc : env.CachedECRDescribeRepositories (ToString account) r with
  | error err => simp [hc] at h
  | ok repos =>
    simp only [hc] at h
    cases hl : loopOutcome env account r repos { allImages := [], repoURI := "", repoName := "" } with
    | error err => simp [hl] at h
    | ok v =>
      simp only [hl] at h
      cases hs : selectImage (env.sortSlice pushedAtLess v.allImages) with
      | none => simp [hs] at h
      | some image =>
        simp [hs] at h
        subst h
        rfl

/-- A worker that steps alone from the entry of `executeChecks`, with a permit
free, reaches its end in seven steps, and the module is then the one that
`executeChecks` run without interruption yields. -/
theorem run_worker_alone (env : Env) (s : RunState) (i : Nat) (w : Worker)
    (hw : s.workers[i]? = some w) (hpc : w.pc = .checks) (hfree : s.semaphore < s.capacity) :
    (run env s (List.replicate 7 (i + 1))).m = executeChecks env s.m w.region ∧
    (run env s (List.replicate 7 (i + 1))).workers = s.workers.set i { w with pc := .done } ∧
    (run env s (List.replicate 7 (i + 1))).semaphore = s.semaphore ∧
    (run env s (List.replicate 7 (i + 1))).wg = s.wg - 1 := by
  have hi : i < s.workers.length := (List.getElem?_eq_some.mp hw).1
  simp only [run, List.replicate, List.foldl, step]
  cases hres : (env.IsServiceInRegion "ecr" w.region).1
  · simp [stepWorker, executeChecks, hw, hpc, hres, hi]
  · cases hf : fetchPhase env (s.m.logIfError (env.IsServiceInRegion "ecr" w.region).2).incTotal
        w.region with
    | mk m1 sent =>
      cases sent with
      | none =>
        simp [stepWorker, executeChecks, getECRRecordsPerRegion, hw, hpc, hres, hi, hfree, hf]
      | some rec =>
        simp [stepWorker, executeChecks, getECRRecordsPerRegion, hw, hpc, hres, hi, hfree, hf]

theorem logIfError_frame (m : ECRModule) (err : Option String) :
    (m.logIfError err).Account = m.Account ∧
    (m.logIfError err).Repositories = m.Repositories ∧
    (m.logIfError err).CommandCounter = m.CommandCounter := by
  cases err <;> simp [ECRModule.logIfError, ECRModule.logError]

/-- What `executeChecks` run without interruption does to the counter and the
inventory, in terms of the region's availability and fetch. -/
theorem executeChecks_effect (env : Env) (m : ECRModule) (r : String) :
    (executeChecks env m r).CommandCounter.Complete =
      m.CommandCounter.Complete + (if available env r then 1 else 0) ∧
    (executeChecks env m r).CommandCounter.Error =
      m.CommandCounter.Error + (if available env r then fetchErrors env m.Account r else 0) ∧
    (executeChecks env m r).Repositories =
      m.Repositories ++ (if available env r then (fetchRecord env m.Account r).toList else []) := by
  obtain ⟨hacc, hrep, hcc⟩ := logIfError_frame m (env.IsServiceInRegion "ecr" r).2
  unfold executeChecks available
  cases hres : (env.IsServiceInRegion "ecr" r).1
  · simp [hres, hrep, hcc]
  · simp only [hres, if_true]
    unfold getECRRecordsPerRegion
    generalize hm : (m.logIfError (env.IsServiceInRegion "ecr" r).2).incTotal = m1
    have hacc1 : m1.Account = m.Account := by rw [← hm, ← hacc]; rfl
    have hrep1 : m1.Repositories = m.Repositories := by rw [← hm, ← hrep]; rfl
    have hcomp : m1.CommandCounter.Complete = m.CommandCounter.Complete := by
      rw [← hm, ← hcc]; rfl
    have herr : m1.CommandCounter.Error = m.CommandCounter.Error := by rw [← hm, ← hcc]; rfl
    have h1 := fetchPhase_fst env m1 r
    have h2 := fetchPhase_snd env m1 r
    rw [hacc1] at h1 h2
    cases hf : fetchPhase env m1 r with
    | mk m2 sent =>
      rw [hf] at h1 h2
      simp only at h1 h2
      subst h1 h2
      cases hs : fetchRecord env m.Account r <;>
        simp [ECRModule.complete, ECRModule.receive, hcomp, herr, hrep1]

/-! ## Lemmas: the rendering of a timestamp -/

theorem digitChar_toNat (d : Nat) : (digitChar d).toNat = 48 + d % 10 := by
  unfold digitChar
  have h : d % 10 < 10 := Nat.mod_lt d (by omega)
  generalize d % 10 = k at h
  interval_cases k <;> rfl

theorem lexLess_cons_self (c : Char) (x y : List Char) :
    lexLess (c :: x) (c :: y) = lexLess x y := by
  simp [lexLess]

theorem lexLess_digit (a b : Nat) (x y : List Char) :
    lexLess (digitChar a :: x) (digitChar b :: y) =
      if a % 10 < b % 10 then true else if b % 10 < a % 10 then false else lexLess x y := by
  simp [lexLess, digitChar_toNat]

theorem appendInt_two (n : Nat) (h : n < 100) :
    appendInt (n : Int) 2 = [digitChar (n / 10), digitChar n] := by
  have h1 : ¬ ((n : Int) < 0) := by omega
  simp [appendInt, h, h1]

theorem appendInt_four (y : Int) (h0 : 0 ≤ y) (h1 : y ≤ 9999) :
    appendInt y 4 = [digitChar (y.natAbs / 1000), digitChar (y.natAbs / 100),
      digitChar (y.natAbs / 10), digitChar y.natAbs] := by
  have h2 : ¬ (y < 0) := by omega
  have h3 : y.natAbs < 10000 := by omega
  simp [appendInt, h2, h3]

theorem lexLess_two (a b : Nat) (ha : a < 100) (hb : b < 100) (x y : List Char) :
    lexLess (appendInt (a : Int) 2 ++ x) (appendInt (b : Int) 2 ++ y) =
      if a < b then true else if b < a then false else lexLess x y := by
  rw [appendInt_two a ha, appendInt_two b hb]
  simp only [List.cons_append, List.nil_append, lexLess_digit]
  split_ifs <;> first | rfl | omega

theorem lexLess_four (a b : Int) (ha0 : 0 ≤ a) (ha : a ≤ 9999) (hb0 : 0 ≤ b) (hb : b ≤ 9999)
    (x y : List Char) :
    lexLess (appendInt a 4 ++ x) (appendInt b 4 ++ y) =
      if a < b then true else if b < a then false else lexLess x y := by
  rw [appendInt_four a ha0 ha, appendInt_four b hb0 hb]
  simp only [List.cons_append, List.nil_append, lexLess_digit]
  split_ifs <;> first | rfl | omega

theorem formatChars_eq (v : Time) :
    v.formatChars =
      appendInt v.year 4 ++ '-' :: (appendInt ((v.month.val + 1 : Nat) : Int) 2 ++
        '-' :: (appendInt ((v.day.val + 1 : Nat) : Int) 2 ++
        ' ' :: (appendInt ((v.hour.val : Nat) : Int) 2 ++
        ':' :: (appendInt ((v.minute.val : Nat) : Int) 2 ++
        ':' :: (appendInt ((v.second.val : Nat) : Int) 2 ++ []))))) := by
  simp [Time.formatChars]

theorem lexStep_int (a b : Int) (x y : Bool) (h : x = y) :
    (if a < b then true else if b < a then false else x) =
      (if a ≠ b then decide (a < b) else y) := by
  subst h
  rcases lt_trichotomy a b with h | h | h
  · simp [h, ne_of_lt h]
  · simp [h]
  · simp [h, ne_of_gt h, not_lt_of_gt h]

theorem lexStep_fin {n : Nat} (a b : Fin n) (x y : Bool) (h : x = y) :
    (if a.val < b.val then true else if b.val < a.val then false else x) =
      (if a ≠ b then decide (a < b) else y) := by
  subst h
  rcases lt_trichotomy a b with h | h | h
  · simp [Fin.lt_def.mp h, ne_of_lt h, h]
  · simp [h]
  · simp [Fin.lt_def.mp h, ne_of_gt h, not_lt_of_gt h, not_lt_of_gt (Fin.lt_def.mp h)]

theorem lexStep_fin_succ {n : Nat} (a b : Fin n) (x y : Bool) (h : x = y) :
    (if a.val + 1 < b.val + 1 then true else if b.val + 1 < a.val + 1 then false else x) =
      (if a ≠ b then decide (a < b) else y) := by
  rw [← lexStep_fin a b x y h]
  simp only [Nat.add_lt_add_iff_right]

theorem lexStep_last {n : Nat} (a b : Fin n) :
    (if a.val < b.val then true else if b.val < a.val then false else lexLess [] []) =
      decide (a < b) := by
  rcases lt_trichotomy a b with h | h | h
  · simp [Fin.lt_def.mp h, h]
  · simp [h, lexLess]
  · simp [not_lt_of_gt h, not_lt_of_gt (Fin.lt_def.mp h), Fin.lt_def.mp h]

/-- For years of four digits the comparison of two renderings as strings is
the chronological comparison of the timestamps. -/
theorem strLess_format_eq_before (t u : Time) (ht0 : 0 ≤ t.year) (ht : t.year ≤ 9999)
    (hu0 : 0 ≤ u.year) (hu : u.year ≤ 9999) :
    strLess t.Format u.Format = t.Before u := by
  have hm := t.month.isLt
  have hm2 := u.month.isLt
  have hd := t.day.isLt
  have hd2 := u.day.isLt
  have hh := t.hour.isLt
  have hh2 := u.hour.isLt
  have hmi := t.minute.isLt
  have hmi2 := u.minute.isLt
  have hs := t.second.isLt
  have hs2 := u.second.isLt
  unfold strLess Time.Format
  simp only [formatChars_eq]
  rw [lexLess_four _ _ ht0 ht hu0 hu, lexLess_cons_self,
    lexLess_two _ _ (by omega) (by omega), lexLess_cons_self,
    lexLess_two _ _ (by omega) (by omega), lexLess_cons_self,
    lexLess_two _ _ (by omega) (by omega), lexLess_cons_self,
    lexLess_two _ _ (by omega) (by omega), lexLess_cons_self,
    lexLess_two _ _ (by omega) (by omega)]
  unfold Time.Before
  exact lexStep_int _ _ _ _ (lexStep_fin_succ _ _ _ _ (lexStep_fin_succ _ _ _ _
    (lexStep_fin _ _ _ _ (lexStep_fin _ _ _ _ (lexStep_last _ _)))))

/-! ## Lemmas: the order on strings, sorted slices, the insertion sort -/

theorem lexLess_irrefl (a : List Char) : lexLess a a = false := by
  induction a with
  | nil => rfl
  | cons c cs ih => simp [lexLess, ih]

theorem lexLess_trans (a b c : List Char) (h1 : lexLess a b = true) (h2 : lexLess b c = true) :
    lexLess a c = true := by
  induction a generalizing b c with
  | nil =>
    cases b with
    | nil => simp [lexLess] at h1
    | cons y ys =>
      cases c with
      | nil => simp [lexLess] at h2
      | cons z zs => simp [lexLess]
  | cons x xs ih =>
    cases b with
    | nil => simp [lexLess] at h1
    | cons y ys =>
      cases c with
      | nil => simp [lexLess] at h2
      | cons z zs =>
        simp only [lexLess] at h1 h2 ⊢
        split_ifs at h1 h2 ⊢ <;> first | rfl | omega | exact ih ys zs h1 h2 | simp at h1 | simp at h2

theorem lexLess_negtrans (a b c : List Char) (h1 : lexLess a b = false)
    (h2 : lexLess b c = false) : lexLess a c = false := by
  induction a generalizing b c with
  | nil =>
    cases b with
    | nil => exact h2
    | cons y ys => simp [lexLess] at h1
  | cons x xs ih =>
    cases b with
    | nil =>
      cases c with
      | nil => simp [lexLess]
      | cons z zs => simp [lexLess] at h2
    | cons y ys =>
      cases c with
      | nil => simp [lexLess]
      | cons z zs =>
        simp only [lexLess] at h1 h2 ⊢
        split_ifs at h1 h2 ⊢ <;> first | rfl | omega | exact ih ys zs h1 h2 | simp at h1 | simp at h2

theorem pushedAtLess_irrefl (a : ImageDetail) : pushedAtLess a a = false :=
  lexLess_irrefl _

theorem pushedAtLess_trans (a b c : ImageDetail) (h1 : pushedAtLess a b = true)
    (h2 : pushedAtLess b c = true) : pushedAtLess a c = true :=
  lexLess_trans _ _ _ h1 h2

theorem pushedAtLess_negtrans (a b c : ImageDetail) (h1 : pushedAtLess a b = false)
    (h2 : pushedAtLess b c = false) : pushedAtLess a c = false :=
  lexLess_negtrans _ _ _ h1 h2

theorem selectImage_eq_getLast? (l : List ImageDetail) : selectImage l = l.getLast? := by
  unfold selectImage
  split
  · rw [List.getLast?_eq_getElem?]
  · split
    · rename_i h1 h2
      match l, h2 with
      | [x], _ => rfl
    · rename_i h1 h2
      match l, h1, h2 with
      | [], _, _ => rfl
      | [x], _, h2 => simp at h2
      | x :: y :: l, h1, _ => simp at h1

/-- The last element of a sorted slice is not less than any element. -/
theorem getLast?_greatest {α : Type} (less : α → α → Bool) (hirr : ∀ a, less a a = false)
    (l : List α) (h : SortedBy less l) (x : α) (hx : l.getLast? = some x) :
    ∀ y ∈ l, less x y = false := by
  induction l with
  | nil => simp
  | cons a as ih =>
    intro y hy
    unfold SortedBy at h
    rw [List.pairwise_cons] at h
    cases as with
    | nil =>
      simp at hx hy
      subst hx hy
      exact hirr _
    | cons b bs =>
      rw [List.getLast?_cons_cons] at hx
      have hxm : x ∈ b :: bs := List.mem_of_getLast?_eq_some hx
      simp only [List.mem_cons] at hy
      rcases hy with rfl | hy
      · exact h.1 x hxm
      · exact ih h.2 hx y (by simpa using hy)

theorem insertLeft_length {α : Type} (less : α → α → Bool) (x : α) (P : List α) :
    (insertLeft less x P).length = P.length + 1 := by
  induction P with
  | nil => rfl
  | cons p ps ih =>
    unfold insertLeft
    split <;> simp [ih]

theorem insertLeft_head {α : Type} (less : α → α → Bool) (x p : α) (ps : List α) :
    (insertLeft less x (p :: ps)).head? = some (if less x p then p else x) := by
  unfold insertLeft
  split <;> simp

theorem getElem?_reverse_append_left {α : Type} (ps : List α) (p : α) (l : List α) :
    (ps.reverse ++ p :: l)[ps.length]? = some p := by
  rw [List.getElem?_append_right (by simp)]
  simp

theorem getElem?_reverse_append_succ {α : Type} (ps : List α) (p x : α) (l : List α) :
    (ps.reverse ++ p :: x :: l)[ps.length + 1]? = some x := by
  rw [List.getElem?_append_right (by simp)]
  simp

theorem swapAt_adjacent {α : Type} (ps : List α) (p x : α) (l : List α) :
    swapAt (ps.reverse ++ p :: x :: l) (ps.length + 1) ps.length = ps.reverse ++ x :: p :: l := by
  unfold swapAt
  rw [getElem?_reverse_append_succ, getElem?_reverse_append_left]
  simp only []
  rw [List.set_append_right _ _ (by simp), List.set_append_right _ _ (by simp)]
  simp

/-- The inner loop of `insertionSort_func` on a slice whose first `P.length`
elements are `P` in reverse. -/
theorem insertionInner_eq {α : Type} (less : α → α → Bool) (P : List α) (x : α) (l : List α) :
    insertionInner less 0 P.length (P.reverse ++ x :: l) = (insertLeft less x P).reverse ++ l := by
  induction P generalizing l with
  | nil => simp [insertionInner, insertLeft]
  | cons p ps ih =>
    simp only [List.length_cons, insertionInner, List.reverse_cons, List.append_assoc,
      List.singleton_append]
    have hl : lessAt less (ps.reverse ++ p :: x :: l) (ps.length + 1) ps.length = less x p := by
      unfold lessAt
      rw [getElem?_reverse_append_succ, getElem?_reverse_append_left]
    rw [hl, swapAt_adjacent]
    unfold insertLeft
    cases hlt : less x p
    · simp
    · simp [ih]

theorem insertionOuter_eq {α : Type} (less : α → α → Bool) (rest : List α) (P : List α) (fuel : Nat)
    (hf : rest.length ≤ fuel) :
    insertionOuter less 0 (P.length + rest.length) fuel P.length (P.reverse ++ rest) =
      (rest.foldl (fun P x => insertLeft less x P) P).reverse := by
  induction rest generalizing P fuel with
  | nil =>
    cases fuel <;> simp [insertionOuter]
  | cons x xs ih =>
    cases fuel with
    | zero => simp at hf
    | succ f =>
      simp only [insertionOuter, List.length_cons]
      rw [if_pos (by omega), insertionInner_eq]
      have := ih (insertLeft less x P) f (by simpa using hf)
      rw [insertLeft_length] at this
      rw [show P.length + (xs.length + 1) = P.length + 1 + xs.length by omega]
      simpa using this

theorem insertionSort_func_eq {α : Type} (less : α → α → Bool) (x0 : α) (tl : List α) :
    insertionSort_func less (x0 :: tl) 0 (x0 :: tl).length =
      (tl.foldl (fun P x => insertLeft less x P) [x0]).reverse := by
  unfold insertionSort_func
  have := insertionOuter_eq less tl [x0] ((x0 :: tl).length - 0) (by simp)
  simpa [Nat.add_comm] using this

theorem Slice_eq_insertionSort {α : Type} (less : α → α → Bool) (x : List α) (h : x.length ≤ 12) :
    Slice less x = insertionSort_func less x 0 x.length := by
  unfold Slice
  simp [pdqsort_func, h]

theorem foldl_insertLeft_head {α : Type} (less : α → α → Bool) (tl : List α) (p : α) (ps : List α) :
    ∃ qs, tl.foldl (fun P x => insertLeft less x P) (p :: ps) = lastMax less p tl :: qs := by
  induction tl generalizing p ps with
  | nil => exact ⟨ps, rfl⟩
  | cons x xs ih =>
    simp only [List.foldl_cons, lastMax]
    cases hlt : less x p
    · have e : insertLeft less x (p :: ps) = x :: p :: ps := by simp [insertLeft, hlt]
      rw [e]
      simpa [lastMax] using ih x (p :: ps)
    · have e : insertLeft less x (p :: ps) = p :: insertLeft less x ps := by
        simp [insertLeft, hlt]
      rw [e]
      simpa [lastMax] using ih p (insertLeft less x ps)

/-- The last element of the insertion sort of `x0 :: tl` is the last of its
greatest elements. -/
theorem insertionSort_func_getLast? {α : Type} (less : α → α → Bool) (x0 : α) (tl : List α) :
    (insertionSort_func less (x0 :: tl) 0 (x0 :: tl).length).getLast? =
      some (lastMax less x0 tl) := by
  rw [insertionSort_func_eq]
  obtain ⟨qs, hq⟩ := foldl_insertLeft_head less tl x0 []
  rw [hq]
  simp

/-- The last of the greatest elements splits the list: no element before it is
greater, every element after it is less. -/
theorem lastMax_spec {α : Type} (less : α → α → Bool)
    (htrans : ∀ a b c, less a b = true → less b c = true → less a c = true)
    (hneg : ∀ a b c, less a b = false → less b c = false → less a c = false)
    (tl : List α) (pre : List α) (best : α) (post : List α)
    (hpre : ∀ y ∈ pre, less best y = false) (hpost : ∀ y ∈ post, less y best = true) :
    ∃ pre1 post1, pre ++ best :: post ++ tl = pre1 ++ lastMax less best tl :: post1 ∧
      (∀ y ∈ pre1, less (lastMax less best tl) y = false) ∧
      (∀ y ∈ post1, less y (lastMax less best tl) = true) := by
  induction tl generalizing pre best post with
  | nil => exact ⟨pre, post, by simp [lastMax], by simpa [lastMax] using hpre,
      by simpa [lastMax] using hpost⟩
  | cons x xs ih =>
    cases hlt : less x best
    · have hstep : lastMax less best (x :: xs) = lastMax less x xs := by
        simp [lastMax, hlt]
      rw [hstep]
      have := ih (pre ++ best :: post) x [] (by
        intro y hy
        simp only [List.mem_append, List.mem_cons] at hy
        rcases hy with hy | rfl | hy
        · exact hneg x best y hlt (hpre y hy)
        · exact hlt
        · cases hxy : less x y
          · rfl
          · have := htrans x y best hxy (hpost y hy)
            rw [hlt] at this
            exact absurd this (by simp)) (by simp)
      simpa using this
    · have hstep : lastMax less best (x :: xs) = lastMax less best xs := by
        simp [lastMax, hlt]
      rw [hstep]
      have := ih pre best (post ++ [x]) hpre (by
        intro y hy
        simp only [List.mem_append, List.mem_singleton] at hy
        rcases hy with hy | rfl
        · exact hpost y hy
        · exact hlt)
      simpa using this

/-! ## Lemmas: the Route53 module -/

theorem zonesLoop_untruncated (client : Route53Client) (fuel : Nat) (zones : List HostedZone)
    (m : Route53Module) (recs : List Record)
    (hun : ∀ input out, client.ListResourceRecordSets input = .ok out → out.IsTruncated = false)
    (h : listedRecordsOfZones client fuel zones = some recs) :
    zonesLoop client zones m = { m with Records := m.Records ++ recs } := by
  induction zones generalizing m recs with
  | nil =>
    simp [listedRecordsOfZones] at h
    subst h
    simp [zonesLoop]
  | cons zone rest ih =>
    simp only [listedRecordsOfZones] at h
    cases hsets : listedRecordSets client (ToString zone.Id) fuel none with
    | none => simp [hsets] at h
    | some sets =>
      cases hrest : listedRecordsOfZones client fuel rest with
      | none => simp [hsets, hrest] at h
      | some records =>
        simp [hsets, hrest] at h
        subst h
        cases fuel with
        | zero => simp [listedRecordSets] at hsets
        | succ n =>
          simp only [listedRecordSets] at hsets
          simp only [zonesLoop]
          cases hc : client.ListResourceRecordSets
              { HostedZoneId := some (ToString zone.Id), StartRecordName := none } with
          | error err => simp [hc] at hsets
          | ok page =>
            simp [hc, hun _ _ hc] at hsets
            subst hsets
            simp [ih _ _ hrest]

theorem listedRecordsOfZones_append (client : Route53Client) (fuel : Nat)
    (a b : List HostedZone) (recs : List Record)
    (h : listedRecordsOfZones client fuel (a ++ b) = some recs) :
    ∃ ra rb, listedRecordsOfZones client fuel a = some ra ∧
      listedRecordsOfZones client fuel b = some rb ∧ recs = ra ++ rb := by
  induction a generalizing recs with
  | nil => exact ⟨[], recs, rfl, by simpa using h, by simp⟩
  | cons z zs iha =>
    simp only [List.cons_append, listedRecordsOfZones] at h ⊢
    cases hs : listedRecordSets client (ToString z.Id) fuel none with
    | none => simp [hs] at h
    | some sets =>
      cases hrest : listedRecordsOfZones client fuel (zs ++ b) with
      | none => simp [hs, hrest] at h
      | some records =>
        simp [hs, hrest] at h
        obtain ⟨ra, rb, h1, h2, h3⟩ := iha records hrest
        refine ⟨sets.flatMap (recordsOfSet (privateZoneText z)) ++ ra, rb, ?_, h2, ?_⟩
        · simp [h1]
        · rw [← h, h3]; simp

theorem getRoute53RecordsLoop_untruncated (client : Route53Client) (fuel : Nat)
    (hun : ∀ input out, client.ListResourceRecordSets input = .ok out → out.IsTruncated = false)
    (k : Nat) (marker : Option String) (m : Route53Module) (recs : List Record)
    (zones : List HostedZone) (hz : listedHostedZones client k marker = some zones)
    (hr : listedRecordsOfZones client fuel zones = some recs) :
    getRoute53RecordsLoop client k marker m = some { m with Records := m.Records ++ recs } := by
  induction k generalizing marker m recs zones with
  | zero => simp [listedHostedZones] at hz
  | succ k ih =>
    simp only [listedHostedZones] at hz
    simp only [getRoute53RecordsLoop]
    cases hc : client.ListHostedZones marker with
    | error err => simp [hc] at hz
    | ok page =>
      simp only [hc] at hz ⊢
      cases hn : page.NextMarker with
      | none =>
        simp [hn] at hz
        subst hz
        simp [zonesLoop_untruncated client fuel _ m recs hun hr]
      | some next =>
        simp [hn] at hz
        obtain ⟨later, hlater, rfl⟩ := hz
        obtain ⟨ra, rb, h1, h2, h3⟩ := listedRecordsOfZones_append client fuel _ _ _ hr
        simp only [zonesLoop_untruncated client fuel _ m ra hun h1]
        rw [ih (some next) _ rb later hlater h2, h3]
        simp

/-- The listing of the hosted zones is followed to its end: when no listing of
record sets is truncated, `getRoute53Records` appends the records of every
zone of every page, in listing order. -/
theorem getRoute53Records_untruncated (client : Route53Client) (fuel : Nat)
    (m : Route53Module) (recs : List Record)
    (hun : ∀ input out, client.ListResourceRecordSets input = .ok out → out.IsTruncated = false)
    (h : listedRecords client fuel = some recs) :
    getRoute53Records client fuel m = some { m with Records := m.Records ++ recs } := by
  unfold listedRecords at h
  unfold getRoute53Records
  cases hz : listedHostedZones client fuel none with
  | none => simp [hz] at h
  | some zones =>
    simp [hz] at h
    exact getRoute53RecordsLoop_untruncated client fuel hun fuel none m recs zones hz h

/-! ## Lemmas: the run with the counter updates split -/

theorem fetchSucceeds_of_ok (env : Env) (account : Option String) (r : String)
    (o : Option Repository) (h : fetchOutcome env account r = .ok o) :
    fetchSucceeds env account r = true ∧ fetchRecord env account r = o := by
  refine ⟨?_, by rw [fetchRecord_eq, h]⟩
  cases hs : fetchSucceeds env account r
  · obtain ⟨err, he⟩ := fetchOutcome_of_fails env account r hs
    rw [he] at h
    cases h
  · rfl

theorem fetchSucceeds_of_error (env : Env) (account : Option String) (r : String)
    (err : String) (h : fetchOutcome env account r = .error err) :
    fetchSucceeds env account r = false := by
  cases hs : fetchSucceeds env account r
  · rfl
  · rw [fetchOutcome_of_succeeds env account r hs] at h
    cases h

theorem lossy_append (base val : Int) (stores : FineWorker → Int) (reg : FinePC → Option Int)
    (ws : List FineWorker) (w : FineWorker) (h : Lossy base val stores reg ws)
    (hs : stores w = 0) (hr : reg w.pc = none) : Lossy base val stores reg (ws ++ [w]) := by
  obtain ⟨h1, h2, h3, h4⟩ := h
  have e : sumBy stores (ws ++ [w]) = sumBy stores ws := by
    simp [sumBy_append, sumBy_cons, sumBy_nil, hs]
  unfold Lossy
  rw [e]
  refine ⟨h1, h2, h3, fun u hu v hv => ?_⟩
  simp at hu
  rcases hu with hu | rfl
  · exact h4 u hu v hv
  · rw [hr] at hv
    cases hv

theorem lossy_set (base val val1 : Int) (stores : FineWorker → Int) (reg : FinePC → Option Int)
    (ws : List FineWorker) (i : Nat) (w w1 : FineWorker) (h : Lossy base val stores reg ws)
    (hw : ws[i]? = some w)
    (hstep : LossyStep val val1 (stores w) (stores w1) (reg w.pc) (reg w1.pc)) :
    Lossy base val1 stores reg (ws.set i w1) := by
  obtain ⟨h1, h2, h3, h4⟩ := h
  obtain ⟨hval, hreg⟩ := hstep
  have hmem := mem_of_getElem? hw
  have e := sumBy_set stores ws i w w1 hw
  unfold Lossy
  rw [e]
  rcases hval with ⟨hv, hd⟩ | ⟨v, hr, hv, hd⟩
  · rw [hv, hd]
    refine ⟨h1, by omega, fun hp => h3 (by omega), fun u hu x hx => ?_⟩
    rcases mem_set hu with hu | hu
    · subst hu
      rcases hreg x hx with hx1 | hx1
      · omega
      · have := h4 w hmem x hx1
        omega
    · have := h4 u hu x hx
      omega
  · have hb := h4 w hmem v hr
    rw [hv, hd]
    refine ⟨by omega, by omega, fun _ => by omega, fun u hu x hx => ?_⟩
    rcases mem_set hu with hu | hu
    · subst hu
      rcases hreg x hx with hx1 | hx1
      · omega
      · have := h4 w hmem x hx1
        omega
    · have := h4 u hu x hx
      omega

theorem fine_map_region_set (ws : List FineWorker) (i : Nat) (w : FineWorker) (p : FinePC)
    (h : ws[i]? = some w) :
    (ws.set i { w with pc := p }).map (fun w => w.region) = ws.map (fun w => w.region) := by
  induction ws generalizing i with
  | nil => simp
  | cons v vs ih =>
    cases i with
    | zero =>
      simp at h
      subst h
      simp
    | succ j =>
      simp at h
      simp [ih j h]

theorem finv_initial (env : Env) (m0 : ECRModule) : FInv env m0 (fineInitial m0) := by
  constructor <;> simp [fineInitial, sumBy, Lossy]

theorem finv_stepMain (env : Env) (m0 : ECRModule) (s : FineState) (h : FInv env m0 s) :
    FInv env m0 (fineStepMain s) := by
  unfold fineStepMain
  split
  · rename_i region rest hts
    have hj : s.joined = false := by
      cases hjj : s.joined
      · rfl
      · have := (h.joined hjj).1
        simp [hts] at this
    constructor
    · exact h.account
    · simpa [hts] using h.regions
    · exact h.capacity
    · simp [h.pending]; omega
    · exact lossy_append _ _ _ _ _ _ h.total (by simp [FineWorker.totalStores])
        (by simp [FinePC.totalReg])
    · exact lossy_append _ _ _ _ _ _ h.executing (by simp [FineWorker.execStores])
        (by simp [FinePC.execReg])
    · exact lossy_append _ _ _ _ _ _ h.complete (by simp [FineWorker.compStores])
        (by simp [FinePC.compReg])
    · exact lossy_append _ _ _ _ _ _ h.error (by simp [FineWorker.errStores])
        (by simp [FinePC.errReg])
    · simp [sumBy_append, sumBy_cons, sumBy_nil, FineWorker.owes, h.wg]
    · simp [sumBy_append, sumBy_cons, sumBy_nil, FinePC.holdsPermit]; exact h.sem
    · exact h.semLe
    · intro w hw
      simp at hw
      rcases hw with hw | rfl
      · exact h.consistent w hw
      · simp [FineWorker.consistent]
    · intro rec hrec
      rcases h.records rec hrec with h1 | ⟨r, hr, h1⟩
      · exact Or.inl h1
      · exact Or.inr ⟨r, by simp at hr ⊢; exact Or.inl hr, h1⟩
    · simp [hj]
  · rename_i hts
    split
    · rename_i hwg
      exact { h with joined := fun _ => ⟨hts, hwg⟩ }
    · exact h

theorem fine_owes_nonneg (w : FineWorker) : 0 ≤ w.owes := by
  unfold FineWorker.owes
  split <;> omega

theorem fine_done_of_owes_zero (w : FineWorker) (h : w.owes = 0) : w.pc = .done := by
  unfold FineWorker.owes at h
  split at h <;> first | omega | assumption

theorem fine_owes_eq_zero_of_sum (ws : List FineWorker) (h : sumBy FineWorker.owes ws = 0) :
    ∀ w ∈ ws, w.owes = 0 := by
  induction ws with
  | nil => simp
  | cons v vs ih =>
    rw [sumBy_cons] at h
    have h1 := fine_owes_nonneg v
    have h2 := sumBy_nonneg FineWorker.owes vs (fun u _ => fine_owes_nonneg u)
    intro w hw
    simp at hw
    rcases hw with rfl | hw
    · omega
    · exact ih (by omega) w hw

theorem fine_not_joined_of_working (env : Env) (m0 : ECRModule) (s : FineState)
    (h : FInv env m0 s) (i : Nat) (w : FineWorker) (hw : s.workers[i]? = some w)
    (hpc : w.pc ≠ .done) : s.joined = false := by
  cases hj : s.joined
  · rfl
  · exfalso
    have h0 := (h.joined hj).2
    rw [h.wg] at h0
    exact hpc (fine_done_of_owes_zero w (fine_owes_eq_zero_of_sum _ h0 w (mem_of_getElem? hw)))

theorem finv_update (env : Env) (m0 : ECRModule) (s t : FineState) (i : Nat) (w : FineWorker)
    (p : FinePC) (h : FInv env m0 s) (hw : s.workers[i]? = some w)
    (hworkers : t.workers = s.workers.set i { w with pc := p })
    (hacc : t.m.Account = s.m.Account) (hts : t.toStart = s.toStart)
    (hcap : t.capacity = s.capacity) (hj : t.joined = false)
    (hpend : t.m.CommandCounter.Pending = s.m.CommandCounter.Pending)
    (htotal : LossyStep s.m.CommandCounter.Total t.m.CommandCounter.Total
      (w.totalStores env) (FineWorker.totalStores env { w with pc := p })
      w.pc.totalReg p.totalReg)
    (hexec : LossyStep (-s.m.CommandCounter.Executing) (-t.m.CommandCounter.Executing)
      (w.execStores env) (FineWorker.execStores env { w with pc := p })
      w.pc.execReg p.execReg)
    (hcomp : LossyStep s.m.CommandCounter.Complete t.m.CommandCounter.Complete
      (w.compStores env) (FineWorker.compStores env { w with pc := p })
      w.pc.compReg p.compReg)
    (herr : LossyStep s.m.CommandCounter.Error t.m.CommandCounter.Error
      (w.errStores env m0.Account) (FineWorker.errStores env m0.Account { w with pc := p })
      w.pc.errReg p.errReg)
    (hwg : t.wg = s.wg - w.owes + FineWorker.owes { w with pc := p })
    (hsem : (t.semaphore : Int) = s.semaphore - (if w.pc.holdsPermit then 1 else 0)
      + (if p.holdsPermit then 1 else 0))
    (hsemLe : t.semaphore ≤ t.capacity)
    (hcons : FineWorker.consistent env m0.Account { w with pc := p })
    (hrec : ∀ rec ∈ t.m.Repositories, rec ∈ s.m.Repositories ∨
      (available env w.region = true ∧ fetchRecord env m0.Account w.region = some rec)) :
    FInv env m0 t := by
  have hmem := mem_of_getElem? hw
  constructor
  · rw [hacc, h.account]
  · rw [hworkers, fine_map_region_set _ _ _ _ hw, hts, h.regions]
  · rw [hcap, h.capacity]
  · rw [hpend, h.pending, hworkers]; simp
  · rw [hworkers]
    exact lossy_set _ _ _ _ _ _ i w _ h.total hw htotal
  · rw [hworkers]
    exact lossy_set _ _ _ _ _ _ i w _ h.executing hw hexec
  · rw [hworkers]
    exact lossy_set _ _ _ _ _ _ i w _ h.complete hw hcomp
  · rw [hworkers]
    exact lossy_set _ _ _ _ _ _ i w _ h.error hw herr
  · rw [hwg, h.wg, hworkers, sumBy_set _ _ _ _ _ hw]
  · rw [hsem, h.sem, hworkers, sumBy_set _ _ _ _ _ hw]
  · exact hsemLe
  · intro v hv
    rw [hworkers] at hv
    rcases mem_set hv with rfl | hv
    · exact hcons
    · exact h.consistent v hv
  · intro rec hr
    rw [hworkers, fine_map_region_set _ _ _ _ hw]
    rcases hrec rec hr with h1 | h1
    · exact h.records rec h1
    · exact Or.inr ⟨w.region, List.mem_map_of_mem _ hmem, h1⟩
  · simp [hj]

theorem fine_permit_pos (ws : List FineWorker) (w : FineWorker) (hw : w ∈ ws)
    (hp : w.pc.holdsPermit = true) :
    1 ≤ sumBy (fun w : FineWorker => if w.pc.holdsPermit then 1 else 0) ws := by
  apply sumBy_pos _ ws (fun u _ => by split <;> omega) w hw
  simp [hp]

theorem finv_stepWorker (env : Env) (m0 : ECRModule) (s : FineState) (i : Nat)
    (h : FInv env m0 s) : FInv env m0 (fineStepWorker env s i) := by
  unfold fineStepWorker
  split
  · exact h
  · rename_i w hw
    have hmem := mem_of_getElem? hw
    have hcons := h.consistent w hmem
    have hnj := fine_not_joined_of_working env m0 s h i w hw
    have hsl := h.semLe
    have hsem := h.sem
    split
    · -- checks
      rename_i hpc
      have hnj := hnj (by simp [hpc])
      have hav : available env w.region = (env.IsServiceInRegion "ecr" w.region).1 := rfl
      cases hres : (env.IsServiceInRegion "ecr" w.region).1 <;>
        cases hlog : (env.IsServiceInRegion "ecr" w.region).2 <;>
        simp only [hres, hlog] at hav ⊢ <;>
        apply finv_update env m0 s _ i w _ h hw rfl <;>
        simp [LossyStep, FineWorker.totalStores, FineWorker.execStores, FineWorker.compStores,
          FineWorker.errStores, FinePC.totalReg, FinePC.execReg, FinePC.compReg, FinePC.errReg,
          FineWorker.owes, FinePC.holdsPermit, FineWorker.consistent, ECRModule.setTotal,
          ECRModule.setError, ECRModule.setExecuting, ECRModule.setComplete,
          ECRModule.logIfError, ECRModule.logError, ECRModule.receive, hpc, hnj, hsl, hav] <;>
        first | omega | tauto
    · -- totalLoad
      rename_i hpc
      have hnj := hnj (by simp [hpc])
      have hav := hcons
      simp only [FineWorker.consistent, hpc] at hav
      apply finv_update env m0 s _ i w _ h hw rfl <;>
        simp [LossyStep, FineWorker.totalStores, FineWorker.execStores, FineWorker.compStores,
          FineWorker.errStores, FinePC.totalReg, FinePC.execReg, FinePC.compReg, FinePC.errReg,
          FineWorker.owes, FinePC.holdsPermit, FineWorker.consistent, ECRModule.setTotal,
          ECRModule.setError, ECRModule.setExecuting, ECRModule.setComplete,
          ECRModule.logIfError, ECRModule.logError, ECRModule.receive, hpc, hnj, hsl, hav] <;>
        first | omega | tauto
    · -- totalStore
      rename_i hpc
      have hnj := hnj (by simp [hpc])
      have hav := hcons
      simp only [FineWorker.consistent, hpc] at hav
      apply finv_update env m0 s _ i w _ h hw rfl <;>
        simp [LossyStep, FineWorker.totalStores, FineWorker.execStores, FineWorker.compStores,
          FineWorker.errStores, FinePC.totalReg, FinePC.execReg, FinePC.compReg, FinePC.errReg,
          FineWorker.owes, FinePC.holdsPermit, FineWorker.consistent, ECRModule.setTotal,
          ECRModule.setError, ECRModule.setExecuting, ECRModule.setComplete,
          ECRModule.logIfError, ECRModule.logError, ECRModule.receive, hpc, hnj, hsl, hav] <;>
        first | omega | tauto
    · -- wgAdd
      rename_i hpc
      have hnj := hnj (by simp [hpc])
      have hav := hcons
      simp only [FineWorker.consistent, hpc] at hav
      apply finv_update env m0 s _ i w _ h hw rfl <;>
        simp [LossyStep, FineWorker.totalStores, FineWorker.execStores, FineWorker.compStores,
          FineWorker.errStores, FinePC.totalReg, FinePC.execReg, FinePC.compReg, FinePC.errReg,
          FineWorker.owes, FinePC.holdsPermit, FineWorker.consistent, ECRModule.setTotal,
          ECRModule.setError, ECRModule.setExecuting, ECRModule.setComplete,
          ECRModule.logIfError, ECRModule.logError, ECRModule.receive, hpc, hnj, hsl, hav] <;>
        first | omega | tauto
    · -- acquire
      rename_i hpc
      have hnj := hnj (by simp [hpc])
      have hav := hcons
      simp only [FineWorker.consistent, hpc] at hav
      split
      · rename_i hlt
        apply finv_update env m0 s _ i w _ h hw rfl <;>
          simp [LossyStep, FineWorker.totalStores, FineWorker.execStores, FineWorker.compStores,
          FineWorker.errStores, FinePC.totalReg, FinePC.execReg, FinePC.compReg, FinePC.errReg,
          FineWorker.owes, FinePC.holdsPermit, FineWorker.consistent, ECRModule.setTotal,
          ECRModule.setError, ECRModule.setExecuting, ECRModule.setComplete,
          ECRModule.logIfError, ECRModule.logError, ECRModule.receive, hpc, hnj, hsl, hav] <;>
          first | omega | tauto
      · exact h
    · -- fetch
      rename_i hpc
      have hnj := hnj (by simp [hpc])
      have hav := hcons
      simp only [FineWorker.consistent, hpc] at hav
      rw [h.account]
      split
      · rename_i err heq
        have hfs := fetchSucceeds_of_error env m0.Account w.region err heq
        apply finv_update env m0 s _ i w _ h hw rfl <;>
          simp [LossyStep, FineWorker.totalStores, FineWorker.execStores, FineWorker.compStores,
          FineWorker.errStores, FinePC.totalReg, FinePC.execReg, FinePC.compReg, FinePC.errReg,
          FineWorker.owes, FinePC.holdsPermit, FineWorker.consistent, ECRModule.setTotal,
          ECRModule.setError, ECRModule.setExecuting, ECRModule.setComplete,
          ECRModule.logIfError, ECRModule.logError, ECRModule.receive, hpc, hnj, hsl, hav,
          hfs] <;>
          first | omega | tauto
      · rename_i rec heq
        obtain ⟨hfs, hfr⟩ := fetchSucceeds_of_ok env m0.Account w.region _ heq
        apply finv_update env m0 s _ i w _ h hw rfl <;>
          simp [LossyStep, FineWorker.totalStores, FineWorker.execStores, FineWorker.compStores,
          FineWorker.errStores, FinePC.totalReg, FinePC.execReg, FinePC.compReg, FinePC.errReg,
          FineWorker.owes, FinePC.holdsPermit, FineWorker.consistent, ECRModule.setTotal,
          ECRModule.setError, ECRModule.setExecuting, ECRModule.setComplete,
          ECRModule.logIfError, ECRModule.logError, ECRModule.receive, hpc, hnj, hsl, hav, hfs,
          hfr] <;>
          first | omega | tauto
      · rename_i heq
        obtain ⟨hfs, hfr⟩ := fetchSucceeds_of_ok env m0.Account w.region _ heq
        apply finv_update env m0 s _ i w _ h hw rfl <;>
          simp [LossyStep, FineWorker.totalStores, FineWorker.execStores, FineWorker.compStores,
          FineWorker.errStores, FinePC.totalReg, FinePC.execReg, FinePC.compReg, FinePC.errReg,
          FineWorker.owes, FinePC.holdsPermit, FineWorker.consistent, ECRModule.setTotal,
          ECRModule.setError, ECRModule.setExecuting, ECRModule.setComplete,
          ECRModule.logIfError, ECRModule.logError, ECRModule.receive, hpc, hnj, hsl, hav, hfs,
          hfr]
    · -- errLoad1
      rename_i hpc
      have hnj := hnj (by simp [hpc])
      have hav := hcons
      simp only [FineWorker.consistent, hpc] at hav
      apply finv_update env m0 s _ i w _ h hw rfl <;>
        simp [LossyStep, FineWorker.totalStores, FineWorker.execStores, FineWorker.compStores,
          FineWorker.errStores, FinePC.totalReg, FinePC.execReg, FinePC.compReg, FinePC.errReg,
          FineWorker.owes, FinePC.holdsPermit, FineWorker.consistent, ECRModule.setTotal,
          ECRModule.setError, ECRModule.setExecuting, ECRModule.setComplete,
          ECRModule.logIfError, ECRModule.logError, ECRModule.receive, hpc, hnj, hsl, hav] <;>
        first | omega | tauto
    · -- errStore1
      rename_i hpc
      have hnj := hnj (by simp [hpc])
      have hav := hcons
      simp only [FineWorker.consistent, hpc] at hav
      apply finv_update env m0 s _ i w _ h hw rfl <;>
        simp [LossyStep, FineWorker.totalStores, FineWorker.execStores, FineWorker.compStores,
          FineWorker.errStores, FinePC.totalReg, FinePC.execReg, FinePC.compReg, FinePC.errReg,
          FineWorker.owes, FinePC.holdsPermit, FineWorker.consistent, ECRModule.setTotal,
          ECRModule.setError, ECRModule.setExecuting, ECRModule.setComplete,
          ECRModule.logIfError, ECRModule.logError, ECRModule.receive, hpc, hnj, hsl, hav] <;>
        first | omega | tauto
    · -- errLog
      rename_i hpc
      have hnj := hnj (by simp [hpc])
      have hav := hcons
      simp only [FineWorker.consistent, hpc] at hav
      apply finv_update env m0 s _ i w _ h hw rfl <;>
        simp [LossyStep, FineWorker.totalStores, FineWorker.execStores, FineWorker.compStores,
          FineWorker.errStores, FinePC.totalReg, FinePC.execReg, FinePC.compReg, FinePC.errReg,
          FineWorker.owes, FinePC.holdsPermit, FineWorker.consistent, ECRModule.setTotal,
          ECRModule.setError, ECRModule.setExecuting, ECRModule.setComplete,
          ECRModule.logIfError, ECRModule.logError, ECRModule.receive, hpc, hnj, hsl, hav] <;>
        first | omega | tauto
    · -- errLoad2
      rename_i hpc
      have hnj := hnj (by simp [hpc])
      have hav := hcons
      simp only [FineWorker.consistent, hpc] at hav
      apply finv_update env m0 s _ i w _ h hw rfl <;>
        simp [LossyStep, FineWorker.totalStores, FineWorker.execStores, FineWorker.compStores,
          FineWorker.errStores, FinePC.totalReg, FinePC.execReg, FinePC.compReg, FinePC.errReg,
          FineWorker.owes, FinePC.holdsPermit, FineWorker.consistent, ECRModule.setTotal,
          ECRModule.setError, ECRModule.setExecuting, ECRModule.setComplete,
          ECRModule.logIfError, ECRModule.logError, ECRModule.receive, hpc, hnj, hsl, hav] <;>
        first | omega | tauto
    · -- errStore2
      rename_i hpc
      have hnj := hnj (by simp [hpc])
      have hav := hcons
      simp only [FineWorker.consistent, hpc] at hav
      apply finv_update env m0 s _ i w _ h hw rfl <;>
        simp [LossyStep, FineWorker.totalStores, FineWorker.execStores, FineWorker.compStores,
          FineWorker.errStores, FinePC.totalReg, FinePC.execReg, FinePC.compReg, FinePC.errReg,
          FineWorker.owes, FinePC.holdsPermit, FineWorker.consistent, ECRModule.setTotal,
          ECRModule.setError, ECRModule.setExecuting, ECRModule.setComplete,
          ECRModule.logIfError, ECRModule.logError, ECRModule.receive, hpc, hnj, hsl, hav] <;>
        first | omega | tauto
    · -- send
      rename_i hpc
      have hnj := hnj (by simp [hpc])
      have hav := hcons
      simp only [FineWorker.consistent, hpc] at hav
      apply finv_update env m0 s _ i w _ h hw rfl <;>
        simp [LossyStep, FineWorker.totalStores, FineWorker.execStores, FineWorker.compStores,
          FineWorker.errStores, FinePC.totalReg, FinePC.execReg, FinePC.compReg, FinePC.errReg,
          FineWorker.owes, FinePC.holdsPermit, FineWorker.consistent, ECRModule.setTotal,
          ECRModule.setError, ECRModule.setExecuting, ECRModule.setComplete,
          ECRModule.logIfError, ECRModule.logError, ECRModule.receive, hpc, hnj, hsl, hav]
      intro r hr
      rcases hr with hr | hr
      · exact Or.inl hr
      · exact Or.inr hr.symm
    · -- release
      rename_i hpc
      have hnj := hnj (by simp [hpc])
      have hav := hcons
      simp only [FineWorker.consistent, hpc] at hav
      have hpos := fine_permit_pos s.workers w hmem (by simp [hpc, FinePC.holdsPermit])
      apply finv_update env m0 s _ i w _ h hw rfl <;>
        simp [LossyStep, FineWorker.totalStores, FineWorker.execStores, FineWorker.compStores,
          FineWorker.errStores, FinePC.totalReg, FinePC.execReg, FinePC.compReg, FinePC.errReg,
          FineWorker.owes, FinePC.holdsPermit, FineWorker.consistent, ECRModule.setTotal,
          ECRModule.setError, ECRModule.setExecuting, ECRModule.setComplete,
          ECRModule.logIfError, ECRModule.logError, ECRModule.receive, hpc, hnj, hsl, hav] <;>
        first | omega | tauto
    · -- execLoad
      rename_i hpc
      have hnj := hnj (by simp [hpc])
      have hav := hcons
      simp only [FineWorker.consistent, hpc] at hav
      apply finv_update env m0 s _ i w _ h hw rfl <;>
        simp [LossyStep, FineWorker.totalStores, FineWorker.execStores, FineWorker.compStores,
          FineWorker.errStores, FinePC.totalReg, FinePC.execReg, FinePC.compReg, FinePC.errReg,
          FineWorker.owes, FinePC.holdsPermit, FineWorker.consistent, ECRModule.setTotal,
          ECRModule.setError, ECRModule.setExecuting, ECRModule.setComplete,
          ECRModule.logIfError, ECRModule.logError, ECRModule.receive, hpc, hnj, hsl, hav] <;>
        first | omega | tauto
    · -- execStore
      rename_i hpc
      have hnj := hnj (by simp [hpc])
      have hav := hcons
      simp only [FineWorker.consistent, hpc] at hav
      apply finv_update env m0 s _ i w _ h hw rfl <;>
        simp [LossyStep, FineWorker.totalStores, FineWorker.execStores, FineWorker.compStores,
          FineWorker.errStores, FinePC.totalReg, FinePC.execReg, FinePC.compReg, FinePC.errReg,
          FineWorker.owes, FinePC.holdsPermit, FineWorker.consistent, ECRModule.setTotal,
          ECRModule.setError, ECRModule.setExecuting, ECRModule.setComplete,
          ECRModule.logIfError, ECRModule.logError, ECRModule.receive, hpc, hnj, hsl, hav] <;>
        first | omega | tauto
    · -- compLoad
      rename_i hpc
      have hnj := hnj (by simp [hpc])
      have hav := hcons
      simp only [FineWorker.consistent, hpc] at hav
      apply finv_update env m0 s _ i w _ h hw rfl <;>
        simp [LossyStep, FineWorker.totalStores, FineWorker.execStores, FineWorker.compStores,
          FineWorker.errStores, FinePC.totalReg, FinePC.execReg, FinePC.compReg, FinePC.errReg,
          FineWorker.owes, FinePC.holdsPermit, FineWorker.consistent, ECRModule.setTotal,
          ECRModule.setError, ECRModule.setExecuting, ECRModule.setComplete,
          ECRModule.logIfError, ECRModule.logError, ECRModule.receive, hpc, hnj, hsl, hav] <;>
        first | omega | tauto
    · -- compStore
      rename_i hpc
      have hnj := hnj (by simp [hpc])
      have hav := hcons
      simp only [FineWorker.consistent, hpc] at hav
      apply finv_update env m0 s _ i w _ h hw rfl <;>
        simp [LossyStep, FineWorker.totalStores, FineWorker.execStores, FineWorker.compStores,
          FineWorker.errStores, FinePC.totalReg, FinePC.execReg, FinePC.compReg, FinePC.errReg,
          FineWorker.owes, FinePC.holdsPermit, FineWorker.consistent, ECRModule.setTotal,
          ECRModule.setError, ECRModule.setExecuting, ECRModule.setComplete,
          ECRModule.logIfError, ECRModule.logError, ECRModule.receive, hpc, hnj, hsl, hav] <;>
        first | omega | tauto
    · -- wgDone
      rename_i hpc
      have hnj := hnj (by simp [hpc])
      have hav := hcons
      simp only [FineWorker.consistent, hpc] at hav
      apply finv_update env m0 s _ i w _ h hw rfl <;>
        simp [LossyStep, FineWorker.totalStores, FineWorker.execStores, FineWorker.compStores,
          FineWorker.errStores, FinePC.totalReg, FinePC.execReg, FinePC.compReg, FinePC.errReg,
          FineWorker.owes, FinePC.holdsPermit, FineWorker.consistent, ECRModule.setTotal,
          ECRModule.setError, ECRModule.setExecuting, ECRModule.setComplete,
          ECRModule.logIfError, ECRModule.logError, ECRModule.receive, hpc, hnj, hsl, hav] <;>
        first | omega | tauto
    · -- returned
      rename_i hpc
      have hnj := hnj (by simp [hpc])
      have hav := hcons
      simp only [FineWorker.consistent, hpc] at hav
      cases hfs : fetchSucceeds env m0.Account w.region <;>
      apply finv_update env m0 s _ i w _ h hw rfl <;>
        simp [LossyStep, FineWorker.totalStores, FineWorker.execStores, FineWorker.compStores,
          FineWorker.errStores, FinePC.totalReg, FinePC.execReg, FinePC.compReg, FinePC.errReg,
          FineWorker.owes, FinePC.holdsPermit, FineWorker.consistent, ECRModule.setTotal,
          ECRModule.setError, ECRModule.setExecuting, ECRModule.setComplete,
          ECRModule.logIfError, ECRModule.logError, ECRModule.receive, hpc, hnj, hsl, hav,
          hfs] <;>
        first | omega | tauto
    · exact h

theorem finv_step (env : Env) (m0 : ECRModule) (s : FineState) (t : Nat) (h : FInv env m0 s) :
    FInv env m0 (fineStep env s t) := by
  cases t with
  | zero => exact finv_stepMain env m0 s h
  | succ i => exact finv_stepWorker env m0 s i h

theorem finv_run (env : Env) (m0 : ECRModule) (s : FineState) (sched : List Nat)
    (h : FInv env m0 s) : FInv env m0 (fineRun env s sched) := by
  induction sched generalizing s with
  | nil => exact h
  | cons t rest ih => exact ih (fineStep env s t) (finv_step env m0 s t h)

theorem finv_PrintECRFine (env : Env) (m : ECRModule) (sched : List Nat) :
    FInv env m (PrintECRFine env m sched) :=
  finv_run env m (fineInitial m) sched (finv_initial env m)

theorem fine_inFetchPhase_eq_semaphore (env : Env) (m0 : ECRModule) (s : FineState)
    (h : FInv env m0 s) : s.inFetchPhase = s.semaphore := by
  have h1 := h.sem
  have e : ∀ ws : List FineWorker,
      sumBy (fun w : FineWorker => if w.pc.holdsPermit then 1 else 0) ws =
        (ws.countP (fun w => w.pc.holdsPermit) : Nat) := by
    intro ws
    induction ws with
    | nil => simp [sumBy_nil]
    | cons v vs ih =>
      rw [sumBy_cons, ih, List.countP_cons]
      cases v.pc.holdsPermit <;> simp
      omega
  rw [e] at h1
  unfold FineState.inFetchPhase
  omega

/-- At every state of a run with the counter updates split, the number of
workers between the acquisition and the release of a permit is at most
`Goroutines`. -/
theorem fine_inFetchPhase_le (env : Env) (m : ECRModule) (sched : List Nat) :
    (PrintECRFine env m sched).inFetchPhase ≤ m.Goroutines := by
  have hinv := finv_PrintECRFine env m sched
  rw [fine_inFetchPhase_eq_semaphore env m _ hinv, ← hinv.capacity]
  exact hinv.semLe

theorem fine_rank_nonneg (p : FinePC) : 0 ≤ p.rank := by
  cases p <;> simp [FinePC.rank]

theorem fine_sumBy_rank_nonneg (ws : List FineWorker) :
    0 ≤ sumBy (fun w : FineWorker => w.pc.rank) ws :=
  sumBy_nonneg _ ws (fun u _ => fine_rank_nonneg u.pc)

theorem fine_measure_nonneg (s : FineState) : 0 ≤ s.measure := by
  unfold FineState.measure
  have := fine_sumBy_rank_nonneg s.workers
  split <;> omega

/-- A worker that has not ended and is not blocked at the semaphore moves to a
place of lower rank, and nothing but the worker changes in the bookkeeping of
the run. -/
theorem fineStepWorker_progress (env : Env) (s : FineState) (i : Nat) (w : FineWorker)
    (hw : s.workers[i]? = some w) (hnd : w.pc ≠ .done)
    (hacq : w.pc = .acquire → s.semaphore < s.capacity) :
    ∃ p : FinePC, p.rank < w.pc.rank ∧
      (fineStepWorker env s i).workers = s.workers.set i { w with pc := p } ∧
      (fineStepWorker env s i).toStart = s.toStart ∧
      (fineStepWorker env s i).joined = s.joined := by
  unfold fineStepWorker
  simp only [hw]
  split
  · rename_i hpc
    split
    · exact ⟨_, by simp [hpc, FinePC.rank], rfl, rfl, rfl⟩
    · exact ⟨_, by simp [hpc, FinePC.rank], rfl, rfl, rfl⟩
  · rename_i hpc
    exact ⟨_, by simp [hpc, FinePC.rank], rfl, rfl, rfl⟩
  · rename_i hpc
    exact ⟨_, by simp [hpc, FinePC.rank], rfl, rfl, rfl⟩
  · rename_i hpc
    exact ⟨_, by simp [hpc, FinePC.rank], rfl, rfl, rfl⟩
  · rename_i hpc
    rw [if_pos (hacq hpc)]
    exact ⟨_, by simp [hpc, FinePC.rank], rfl, rfl, rfl⟩
  · rename_i hpc
    split
    · exact ⟨_, by simp [hpc, FinePC.rank], rfl, rfl, rfl⟩
    · exact ⟨_, by simp [hpc, FinePC.rank], rfl, rfl, rfl⟩
    · exact ⟨_, by simp [hpc, FinePC.rank], rfl, rfl, rfl⟩
  · rename_i hpc
    exact ⟨_, by simp [hpc, FinePC.rank], rfl, rfl, rfl⟩
  · rename_i hpc
    exact ⟨_, by simp [hpc, FinePC.rank], rfl, rfl, rfl⟩
  · rename_i hpc
    exact ⟨_, by simp [hpc, FinePC.rank], rfl, rfl, rfl⟩
  · rename_i hpc
    exact ⟨_, by simp [hpc, FinePC.rank], rfl, rfl, rfl⟩
  · rename_i hpc
    exact ⟨_, by simp [hpc, FinePC.rank], rfl, rfl, rfl⟩
  · rename_i hpc
    exact ⟨_, by simp [hpc, FinePC.rank], rfl, rfl, rfl⟩
  · rename_i hpc
    exact ⟨_, by simp [hpc, FinePC.rank], rfl, rfl, rfl⟩
  · rename_i hpc
    exact ⟨_, by simp [hpc, FinePC.rank], rfl, rfl, rfl⟩
  · rename_i hpc
    exact ⟨_, by simp [hpc, FinePC.rank], rfl, rfl, rfl⟩
  · rename_i hpc
    exact ⟨_, by simp [hpc, FinePC.rank], rfl, rfl, rfl⟩
  · rename_i hpc
    exact ⟨_, by simp [hpc, FinePC.rank], rfl, rfl, rfl⟩
  · rename_i hpc
    exact ⟨_, by simp [hpc, FinePC.rank], rfl, rfl, rfl⟩
  · rename_i hpc
    exact ⟨_, by simp [hpc, FinePC.rank], rfl, rfl, rfl⟩
  · rename_i hpc
    exact absurd hpc hnd

theorem measure_fineStepWorker (env : Env) (s : FineState) (i : Nat) (w : FineWorker)
    (hw : s.workers[i]? = some w) (hnd : w.pc ≠ .done)
    (hacq : w.pc = .acquire → s.semaphore < s.capacity) :
    (fineStep env s (i + 1)).measure < s.measure := by
  obtain ⟨p, hp, h1, h2, h3⟩ := fineStepWorker_progress env s i w hw hnd hacq
  show (fineStepWorker env s i).measure < s.measure
  unfold FineState.measure
  rw [h1, h2, h3, sumBy_set _ _ _ _ _ hw]
  simp only []
  omega

/-- While `wg.Wait()` has not returned, some thread can take a step that
lowers the measure, provided the semaphore has room for one permit. -/
theorem fine_exists_decreasing_step (env : Env) (m0 : ECRModule) (s : FineState)
    (h : FInv env m0 s) (hG : 1 ≤ m0.Goroutines) (hj : s.joined = false) :
    ∃ t, (fineStep env s t).measure < s.measure := by
  cases hts : s.toStart with
  | cons region rest =>
    refine ⟨0, ?_⟩
    show (fineStepMain s).measure < s.measure
    unfold fineStepMain FineState.measure
    simp [hts, hj, sumBy_append, sumBy_cons, sumBy_nil, FinePC.rank]
    omega
  | nil =>
    by_cases hA : ∃ (i : Nat) (w : FineWorker),
        s.workers[i]? = some w ∧ w.pc ≠ .done ∧ w.pc ≠ .acquire
    · obtain ⟨i, w, hw, hnd, hna⟩ := hA
      exact ⟨i + 1, measure_fineStepWorker env s i w hw hnd (fun hp => absurd hp hna)⟩
    · have hall : ∀ w ∈ s.workers, w.pc = .done ∨ w.pc = .acquire := by
        intro w hw
        obtain ⟨i, hi⟩ := List.mem_iff_getElem?.mp hw
        by_contra hc
        push_neg at hc
        exact hA ⟨i, w, hi, hc.1, hc.2⟩
      by_cases hB : ∃ (i : Nat) (w : FineWorker), s.workers[i]? = some w ∧ w.pc = .acquire
      · obtain ⟨i, w, hw, hpc⟩ := hB
        have hsem : sumBy (fun w : FineWorker => if w.pc.holdsPermit then 1 else 0)
            s.workers = 0 := by
          apply sumBy_eq_zero
          intro v hv
          rcases hall v hv with hv | hv <;> simp [hv, FinePC.holdsPermit]
        have h1 := h.sem
        have h2 := h.capacity
        refine ⟨i + 1, measure_fineStepWorker env s i w hw (by simp [hpc]) (fun _ => ?_)⟩
        omega
      · have hdone : ∀ w ∈ s.workers, w.pc = .done := by
          intro w hw
          rcases hall w hw with hv | hv
          · exact hv
          · obtain ⟨i, hi⟩ := List.mem_iff_getElem?.mp hw
            exact absurd ⟨i, w, hi, hv⟩ hB
        have hwg : s.wg = 0 := by
          rw [h.wg]
          apply sumBy_eq_zero
          intro v hv
          simp [FineWorker.owes, hdone v hv]
        refine ⟨0, ?_⟩
        show (fineStepMain s).measure < s.measure
        unfold fineStepMain FineState.measure
        simp [hts, hj, hwg]

/-- From every state of a run some schedule leads to the return of
`wg.Wait()`, provided the semaphore has room for one permit. -/
theorem fine_exists_joining_schedule (env : Env) (m0 : ECRModule) (hG : 1 ≤ m0.Goroutines)
    (s : FineState) (h : FInv env m0 s) : ∃ more, (fineRun env s more).joined = true := by
  have key : ∀ n : Nat, ∀ s : FineState, FInv env m0 s → s.measure ≤ n →
      ∃ more, (fineRun env s more).joined = true := by
    intro n
    induction n with
    | zero =>
      intro s h hle
      refine ⟨[], ?_⟩
      cases hj : s.joined
      · exfalso
        have := fine_sumBy_rank_nonneg s.workers
        unfold FineState.measure at hle
        simp [hj] at hle
        omega
      · simpa [fineRun] using hj
    | succ n ih =>
      intro s h hle
      cases hj : s.joined
      · obtain ⟨t, ht⟩ := fine_exists_decreasing_step env m0 s h hG hj
        obtain ⟨more, hmore⟩ := ih (fineStep env s t) (finv_step env m0 s t h)
          (by push_cast at hle; omega)
        exact ⟨t :: more, hmore⟩
      · exact ⟨[], by simpa [fineRun] using hj⟩
  exact key s.measure.toNat s h (by
    have := fine_measure_nonneg s
    omega)

/-- Once `wg.Wait()` has returned, a worker was started for every region and
every worker has ended. -/
theorem fine_joined_all_done (env : Env) (m0 : ECRModule) (s : FineState) (h : FInv env m0 s)
    (hj : s.joined = true) :
    s.workers.map (fun w => w.region) = m0.AWSRegions ∧ ∀ w ∈ s.workers, w.pc = .done := by
  obtain ⟨h1, h2⟩ := h.joined hj
  refine ⟨?_, ?_⟩
  · have := h.regions
    rwa [h1, List.append_nil] at this
  · intro w hw
    rw [h.wg] at h2
    exact fine_done_of_owes_zero w (fine_owes_eq_zero_of_sum _ h2 w hw)

theorem fine_sumBy_done (g : String → Bool) (k : Int) (f : FineWorker → Int)
    (hf : ∀ w : FineWorker, w.pc = .done → f w = if g w.region then k else 0)
    (ws : List FineWorker) (h : ∀ w ∈ ws, w.pc = .done) :
    sumBy f ws = k * ((ws.map fun w => w.region).filter g).length := by
  induction ws with
  | nil => simp [sumBy_nil]
  | cons v vs ih =>
    rw [sumBy_cons, ih (fun w hw => h w (by simp [hw])), hf v (h v (by simp))]
    cases hg : g v.region <;> simp [List.filter_cons, hg]
    ring

theorem sumBy_le {α : Type} (f : α → Int) (k : Int) (ws : List α) (h : ∀ w ∈ ws, f w ≤ k) :
    sumBy f ws ≤ k * ws.length := by
  induction ws with
  | nil => simp [sumBy_nil]
  | cons v vs ih =>
    rw [sumBy_cons]
    have h1 := h v (by simp)
    have h2 := ih (fun w hw => h w (by simp [hw]))
    simp only [List.length_cons]
    push_cast
    rw [mul_add]
    omega

/-- The counter once `wg.Wait()` has returned, in terms of the regions: the
number of regions started, and, for the fields raised by the workers, the
bounds that hold however their loads and stores interleave. -/
theorem fine_joined_counter (env : Env) (m0 : ECRModule) (s : FineState) (h : FInv env m0 s)
    (hj : s.joined = true) :
    s.m.CommandCounter.Pending = m0.CommandCounter.Pending + m0.AWSRegions.length ∧
    (m0.CommandCounter.Complete ≤ s.m.CommandCounter.Complete ∧
      s.m.CommandCounter.Complete ≤
        m0.CommandCounter.Complete + (m0.AWSRegions.filter (available env)).length ∧
      (0 < (m0.AWSRegions.filter (available env)).length →
        m0.CommandCounter.Complete + 1 ≤ s.m.CommandCounter.Complete)) ∧
    (m0.CommandCounter.Error ≤ s.m.CommandCounter.Error ∧
      s.m.CommandCounter.Error ≤ m0.CommandCounter.Error +
        2 * (m0.AWSRegions.filter
          (fun r => available env r && !fetchSucceeds env m0.Account r)).length ∧
      (0 < (m0.AWSRegions.filter
          (fun r => available env r && !fetchSucceeds env m0.Account r)).length →
        m0.CommandCounter.Error + 1 ≤ s.m.CommandCounter.Error)) := by
  obtain ⟨hr, hd⟩ := fine_joined_all_done env m0 s h hj
  have hlen : s.workers.length = m0.AWSRegions.length := by
    rw [← hr]; simp
  have e1 := fine_sumBy_done (available env) 1 (FineWorker.compStores env)
    (fun w hw => by simp [FineWorker.compStores, hw]) s.workers hd
  have e2 := fine_sumBy_done (fun r => available env r && !fetchSucceeds env m0.Account r) 2
    (FineWorker.errStores env m0.Account)
    (fun w hw => by simp [FineWorker.errStores, hw]) s.workers hd
  rw [hr] at e1 e2
  obtain ⟨c1, c2, c3, _⟩ := h.complete
  obtain ⟨r1, r2, r3, _⟩ := h.error
  rw [e1] at c2 c3
  rw [e2] at r2 r3
  refine ⟨?_, ⟨c1, by omega, fun hp => c3 (by omega)⟩, ⟨r1, r2, fun hp => r3 (by omega)⟩⟩
  rw [h.pending, hlen]

/-- No statement of a run takes a field of the counter out of the range of a
64-bit `int`, when the run starts with the fields between `-2^62` and `2^62`
and has fewer than `2^61` regions: the arithmetic of the run does not wrap. -/
theorem fine_counter_isInt64 (env : Env) (m0 : ECRModule) (s : FineState) (h : FInv env m0 s)
    (hrange : m0.CommandCounter.inRange) (hlen : m0.AWSRegions.length < 2 ^ 61) :
    s.m.CommandCounter.isInt64 := by
  have hl : s.workers.length ≤ m0.AWSRegions.length := by
    rw [← h.regions]
    simp
  have b1 := sumBy_le (FineWorker.totalStores env) 1 s.workers
    (fun w _ => by unfold FineWorker.totalStores; split <;> (try split) <;> omega)
  have b2 := sumBy_le (FineWorker.execStores env) 1 s.workers
    (fun w _ => by unfold FineWorker.execStores; split <;> (try split) <;> omega)
  have b3 := sumBy_le (FineWorker.compStores env) 1 s.workers
    (fun w _ => by unfold FineWorker.compStores; split <;> (try split) <;> omega)
  have b4 := sumBy_le (FineWorker.errStores env m0.Account) 2 s.workers
    (fun w _ => by unfold FineWorker.errStores; split <;> (try split) <;> omega)
  obtain ⟨t1, t2, _, _⟩ := h.total
  obtain ⟨x1, x2, _, _⟩ := h.executing
  obtain ⟨c1, c2, _, _⟩ := h.complete
  obtain ⟨r1, r2, _, _⟩ := h.error
  have hp := h.pending
  obtain ⟨⟨a1, a2⟩, ⟨a3, a4⟩, ⟨a5, a6⟩, ⟨a7, a8⟩, a9, a10⟩ := hrange
  have hl2 : (s.workers.length : Int) < 2 ^ 61 := by
    have : s.workers.length < 2 ^ 61 := by omega
    exact_mod_cast this
  norm_num at a1 a2 a3 a4 a5 a6 a7 a8 a9 a10 hl2
  unfold CommandCounter.isInt64
  norm_num
  refine ⟨⟨?_, ?_⟩, ⟨?_, ?_⟩, ⟨?_, ?_⟩, ⟨?_, ?_⟩, ?_, ?_⟩ <;> omega

/-- A worker that steps alone from the entry of `executeChecks`, with a permit
free, reaches its end within eighteen steps, and the module is then the one
that `executeChecks` run without interruption yields. -/
theorem fine_worker_alone (env : Env) (s : FineState) (i : Nat) (w : FineWorker)
    (hw : s.workers[i]? = some w) (hpc : w.pc = .checks) (hfree : s.semaphore < s.capacity) :
    (fineRun env s (List.replicate 18 (i + 1))).m = executeChecks env s.m w.region ∧
    (fineRun env s (List.replicate 18 (i + 1))).workers = s.workers.set i { w with pc := .done } ∧
    (fineRun env s (List.replicate 18 (i + 1))).semaphore = s.semaphore ∧
    (fineRun env s (List.replicate 18 (i + 1))).wg = s.wg - 1 := by
  have hi : i < s.workers.length := (List.getElem?_eq_some.mp hw).1
  simp only [fineRun, List.replicate, List.foldl, fineStep]
  cases hres : (env.IsServiceInRegion "ecr" w.region).1
  · simp [fineStepWorker, executeChecks, hw, hpc, hres, hi]
  · cases hlog : (env.IsServiceInRegion "ecr" w.region).2 <;>
      cases hf : fetchOutcome env s.m.Account w.region with
      | error err =>
        simp [fineStepWorker, executeChecks, getECRRecordsPerRegion, fetchPhase_eq, hw, hpc, hres,
          hlog, hi, hfree, hf, ECRModule.logIfError, ECRModule.logError, ECRModule.incTotal,
          ECRModule.incError, ECRModule.failed, ECRModule.complete, ECRModule.receive,
          ECRModule.setTotal, ECRModule.setError, ECRModule.setExecuting, ECRModule.setComplete]
      | ok o =>
        cases o <;>
        simp [fineStepWorker, executeChecks, getECRRecordsPerRegion, fetchPhase_eq, hw, hpc, hres,
          hlog, hi, hfree, hf, ECRModule.logIfError, ECRModule.logError, ECRModule.incTotal,
          ECRModule.incError, ECRModule.failed, ECRModule.complete, ECRModule.receive,
          ECRModule.setTotal, ECRModule.setError, ECRModule.setExecuting, ECRModule.setComplete]

/-- The method `executeChecks` run without interruption on a counter with
every field between `-2^62` and `2^62` leaves every field a value of a 64-bit
`int`. -/
theorem executeChecks_isInt64 (env : Env) (m : ECRModule) (r : String)
    (hrange : m.CommandCounter.inRange) : (executeChecks env m r).CommandCounter.isInt64 := by
  obtain ⟨⟨a1, a2⟩, ⟨a3, a4⟩, ⟨a5, a6⟩, ⟨a7, a8⟩, a9, a10⟩ := hrange
  norm_num at a1 a2 a3 a4 a5 a6 a7 a8 a9 a10
  unfold CommandCounter.isInt64
  norm_num
  cases hres : (env.IsServiceInRegion "ecr" r).1 <;>
    cases hlog : (env.IsServiceInRegion "ecr" r).2 <;>
    cases hf : fetchOutcome env m.Account r with
    | error err =>
      simp [executeChecks, getECRRecordsPerRegion, fetchPhase_eq, hres, hlog, hf,
        ECRModule.logIfError, ECRModule.logError, ECRModule.incTotal, ECRModule.incError,
        ECRModule.failed, ECRModule.complete, ECRModule.receive] <;>
      omega
    | ok o =>
      cases o <;>
      simp [executeChecks, getECRRecordsPerRegion, fetchPhase_eq, hres, hlog, hf,
        ECRModule.logIfError, ECRModule.logError, ECRModule.incTotal, ECRModule.incError,
        ECRModule.failed, ECRModule.complete, ECRModule.receive] <;>
      omega

/-! ## Claims about the counter, the semaphore and the availability check -/

/-- C1, as the code behaves, for a run that starts with every field of the
counter between `-2^62` and `2^62` and has fewer than `2^61` regions, so that
no `++` or `--` wraps around. A worker run without interruption raises
`Complete` by exactly one when its region passes the availability check,
whether its fetch succeeds or fails, and by nothing otherwise; it leaves
`Error` as it is when the region is reported absent or its fetch succeeds, and
raises `Error` and sends no record when the fetch fails. In the run of
`PrintECR` in which the load and the store of every `++` and `--` on the
counter are steps of their own: from every state of a run with at least one
permit some schedule leads to the return of `wg.Wait()`; under every schedule
the fields of the counter stay values of a 64-bit `int`; and once `wg.Wait()`
has returned, under every schedule, `Pending` has been raised by one per
region, `Complete` by one per region that passed the availability check when
at most one region passed it, `Error` is unchanged when no fetch failed, and
for a region whose fetch failed `Error` has been raised and `Repositories`
holds no new record of that region. -/
theorem C1_complete_raised_on_every_path (env : Env) (m : ECRModule)
    (hrange : m.CommandCounter.inRange) (hlen : m.AWSRegions.length < 2 ^ 61) :
    (∀ r : String,
      (executeChecks env m r).CommandCounter.isInt64 ∧
      (executeChecks env m r).CommandCounter.Complete =
        m.CommandCounter.Complete + (if available env r then 1 else 0) ∧
      (available env r = false ∨ fetchSucceeds env m.Account r = true →
        (executeChecks env m r).CommandCounter.Error = m.CommandCounter.Error) ∧
      (available env r = true → fetchSucceeds env m.Account r = false →
        m.CommandCounter.Error < (executeChecks env m r).CommandCounter.Error ∧
        (executeChecks env m r).Repositories = m.Repositories)) ∧
    (1 ≤ m.Goroutines → ∀ sched, ∃ more, (PrintECRFine env m (sched ++ more)).joined = true) ∧
    ∀ sched,
      (PrintECRFine env m sched).m.CommandCounter.isInt64 ∧
      ((PrintECRFine env m sched).joined = true →
        (PrintECRFine env m sched).m.CommandCounter.Pending =
          m.CommandCounter.Pending + m.AWSRegions.length ∧
        ((m.AWSRegions.filter (available env)).length ≤ 1 →
          (PrintECRFine env m sched).m.CommandCounter.Complete =
            m.CommandCounter.Complete + (m.AWSRegions.filter (available env)).length) ∧
        ((∀ r ∈ m.AWSRegions, available env r = true → fetchSucceeds env m.Account r = true) →
          (PrintECRFine env m sched).m.CommandCounter.Error = m.CommandCounter.Error) ∧
        ∀ r ∈ m.AWSRegions, available env r = true → fetchSucceeds env m.Account r = false →
          m.CommandCounter.Error < (PrintECRFine env m sched).m.CommandCounter.Error ∧
          ∀ rec ∈ (PrintECRFine env m sched).m.Repositories,
            rec ∈ m.Repositories ∨ rec.Region ≠ r) := by
  refine ⟨fun r => ?_, fun hG sched => ?_, fun sched => ⟨?_, fun hj => ?_⟩⟩
  · obtain ⟨e1, e2, e3⟩ := executeChecks_effect env m r
    refine ⟨executeChecks_isInt64 env m r hrange, e1, fun h => ?_, fun hav hfail => ⟨?_, ?_⟩⟩
    · rw [e2]
      rcases h with h | h
      · simp [h]
      · simp [fetchErrors_of_succeeds env m.Account r h]
    · rw [e2, hav, fetchErrors_of_fails env m.Account r hfail]
      simp
    · rw [e3, hav, fetchRecord_of_fails env m.Account r hfail]
      simp
  · obtain ⟨more, hm⟩ := fine_exists_joining_schedule env m hG _ (finv_PrintECRFine env m sched)
    refine ⟨more, ?_⟩
    simpa [PrintECRFine, fineRun, List.foldl_append] using hm
  · exact fine_counter_isInt64 env m _ (finv_PrintECRFine env m sched) hrange hlen
  · have hinv := finv_PrintECRFine env m sched
    obtain ⟨h1, ⟨c1, c2, c3⟩, r1, r2, r3⟩ := fine_joined_counter env m _ hinv hj
    refine ⟨h1, fun hle => ?_, fun hall => ?_, fun r hr hav hfail => ⟨?_, fun rec hrec => ?_⟩⟩
    · omega
    · have : m.AWSRegions.filter
          (fun r => available env r && !fetchSucceeds env m.Account r) = [] := by
        rw [List.filter_eq_nil_iff]
        intro q hq
        cases hav : available env q
        · simp
        · simp [hall q hq hav]
      rw [this] at r2
      simp at r2
      omega
    · have hmem : r ∈ m.AWSRegions.filter
          (fun r => available env r && !fetchSucceeds env m.Account r) := by
        simp [hr, hav, hfail]
      have := List.length_pos_of_mem hmem
      have := r3 (by omega)
      omega
    · rcases hinv.records rec hrec with h0 | ⟨q, _, _, hq⟩
      · exact Or.inl h0
      · right
        intro hreg
        have := fetchRecord_region env m.Account q rec hq
        rw [hreg] at this
        subst this
        rw [fetchRecord_of_fails env m.Account r hfail] at hq
        exact absurd hq (by simp)

/-- C1, witness: the regions `"c"`, whose DescribeRepositories fails, and
`"d"`, which the lookup reports absent: the worker of `"c"` alone, the
existence of a schedule that ends the run, and the counter at the end of the
run in which the workers step one after the other. -/
theorem C1_complete_raised_on_every_path_witness :
    ((0 : Int) < (executeChecks sampleEnv (sampleModule ["c", "d"]) "c").CommandCounter.Error ∧
      (executeChecks sampleEnv (sampleModule ["c", "d"]) "c").Repositories = []) ∧
    (executeChecks sampleEnv (sampleModule ["c", "d"]) "d").CommandCounter.Error = 0 ∧
    (∃ more, (PrintECRFine sampleEnv (sampleModule ["c", "d"]) ([0] ++ more)).joined = true) ∧
    (PrintECRFine sampleEnv (sampleModule ["c", "d"]) (fineSequentialSchedule 2)).joined = true ∧
    (PrintECRFine sampleEnv (sampleModule ["c", "d"])
      (fineSequentialSchedule 2)).m.CommandCounter.Pending = 2 ∧
    (PrintECRFine sampleEnv (sampleModule ["c", "d"])
      (fineSequentialSchedule 2)).m.CommandCounter.Complete = 1 ∧
    (0 : Int) < (PrintECRFine sampleEnv (sampleModule ["c", "d"])
      (fineSequentialSchedule 2)).m.CommandCounter.Error := by
  have h0 := C1_complete_raised_on_every_path sampleEnv (sampleModule ["c", "d"])
    (by decide) (by decide)
  have h := (h0.2.2 (fineSequentialSchedule 2)).2 (by decide)
  exact ⟨(h0.1 "c").2.2.2 (by decide) (by decide), (h0.1 "d").2.2.1 (Or.inl (by decide)),
    h0.2.1 (by decide) [0], by decide, h.1, h.2.1 (by decide),
    (h.2.2.2 "c" (by decide) (by decide) (by decide)).1⟩

/-- C1, counterexample: in the run over the single region `"c"`, whose
DescribeRepositories fails, the worker raises both counters, `Complete` to 1
and `Error` to 2, so it is not the case that exactly one of them has been
raised by one and the run does not end with `Error = 1`. -/
theorem C1_counterexample :
    (PrintECR sampleEnv (sampleModule ["c"]) (sequentialSchedule 1)).joined = true ∧
    (PrintECR sampleEnv (sampleModule ["c"]) (sequentialSchedule 1)).m.CommandCounter.Complete = 1 ∧
    (PrintECR sampleEnv (sampleModule ["c"]) (sequentialSchedule 1)).m.CommandCounter.Error = 2 ∧
    fetchSucceeds sampleEnv (sampleModule ["c"]).Account "c" = false := by
  decide

/-- C3. At every state of a run of `PrintECR`, under every schedule, the number
of workers between the acquisition and the release of a permit is at most
`Goroutines`; and a worker that holds a permit gives it back within three of
its own steps whatever the outcome of its fetch (a record to send, an error,
no image): it is then at the deferred update of the counter and the semaphore
holds one item less. -/
theorem C3_at_most_goroutines_in_fetch_phase (env : Env) (m : ECRModule) (sched : List Nat) :
    (PrintECR env m sched).inFetchPhase ≤ m.Goroutines ∧
    ∀ (i : Nat) (w : Worker), (PrintECR env m sched).workers[i]? = some w →
      w.pc.holdsPermit = true →
      ∃ k, k ≤ 3 ∧
        (run env (PrintECR env m sched) (List.replicate k (i + 1))).workers[i]? =
          some { w with pc := .deferred } ∧
        (run env (PrintECR env m sched) (List.replicate k (i + 1))).semaphore + 1 =
          (PrintECR env m sched).semaphore := by
  have hinv := inv_PrintECR env m sched
  refine ⟨?_, ?_⟩
  · rw [inFetchPhase_eq_semaphore env m _ hinv, ← hinv.capacity]
    exact hinv.semLe
  · generalize PrintECR env m sched = s at hinv
    intro i w hw hp
    have hi : i < s.workers.length := (List.getElem?_eq_some.mp hw).1
    have hpos := sumBy_permit_pos s.workers w (mem_of_getElem? hw) hp
    have hsem := hinv.sem
    have hrel : ∀ t : RunState, ∀ v : Worker, t.workers[i]? = some v → v.pc = .release →
        (run env t [i + 1]).workers[i]? = some { v with pc := .deferred } ∧
        (run env t [i + 1]).semaphore = t.semaphore - 1 := by
      intro t v hv hpc
      have hti : i < t.workers.length := (List.getElem?_eq_some.mp hv).1
      simp [run, step, stepWorker, hv, hpc, hti]
    have hsend : ∀ t : RunState, ∀ v : Worker, ∀ rec, t.workers[i]? = some v → v.pc = .send rec →
        (run env t [i + 1]).workers[i]? = some { v with pc := .release } ∧
        (run env t [i + 1]).semaphore = t.semaphore := by
      intro t v rec hv hpc
      have hti : i < t.workers.length := (List.getElem?_eq_some.mp hv).1
      simp [run, step, stepWorker, hv, hpc, hti]
    cases hpc : w.pc with
    | checks => simp [hpc, PC.holdsPermit] at hp
    | acquire => simp [hpc, PC.holdsPermit] at hp
    | deferred => simp [hpc, PC.holdsPermit] at hp
    | returned => simp [hpc, PC.holdsPermit] at hp
    | done => simp [hpc, PC.holdsPermit] at hp
    | release =>
      obtain ⟨h1, h2⟩ := hrel s w hw hpc
      exact ⟨1, by omega, by simpa using h1, by simp only [List.replicate]; omega⟩
    | send rec =>
      obtain ⟨h1, h2⟩ := hsend s w rec hw hpc
      obtain ⟨h3, h4⟩ := hrel _ _ h1 rfl
      refine ⟨2, by omega, ?_, ?_⟩
      · simpa [run] using h3
      · simp only [run, List.replicate, List.foldl] at h2 h4 ⊢
        omega
    | fetch =>
      have hstep : (run env s [i + 1]).semaphore = s.semaphore ∧
          ((run env s [i + 1]).workers[i]? = some { w with pc := .release } ∨
            ∃ rec, (run env s [i + 1]).workers[i]? = some { w with pc := .send rec }) := by
        simp only [run, List.foldl, step, stepWorker, hw, hpc]
        split
        · rename_i m1 rec heq
          exact ⟨rfl, Or.inr ⟨rec, by simp [hi]⟩⟩
        · exact ⟨rfl, Or.inl (by simp [hi])⟩
      obtain ⟨h0, h1 | ⟨rec, h1⟩⟩ := hstep
      · obtain ⟨h3, h4⟩ := hrel _ _ h1 rfl
        refine ⟨2, by omega, ?_, ?_⟩
        · simpa [run] using h3
        · simp only [run, List.replicate, List.foldl] at h0 h4 ⊢
          omega
      · obtain ⟨h2, h2s⟩ := hsend _ _ rec h1 rfl
        obtain ⟨h3, h4⟩ := hrel _ _ h2 rfl
        refine ⟨3, by omega, ?_, ?_⟩
        · simpa [run] using h3
        · simp only [run, List.replicate, List.foldl] at h0 h2s h4 ⊢
          omega

/-- C3, witness: in the sample environment the worker of region `"a"` holds
the only permit after three steps of the run. -/
theorem C3_at_most_goroutines_in_fetch_phase_witness :
    (PrintECR sampleEnv (sampleModule ["a", "b"]) [0, 0, 1, 1, 2, 2]).inFetchPhase ≤ 1 ∧
    ∃ k, k ≤ 3 ∧
      (run sampleEnv (PrintECR sampleEnv (sampleModule ["a", "b"]) [0, 0, 1, 1, 2, 2])
        (List.replicate k 1)).workers[0]? = some { region := "a", pc := .deferred } := by
  have h := C3_at_most_goroutines_in_fetch_phase sampleEnv (sampleModule ["a", "b"])
    [0, 0, 1, 1, 2, 2]
  obtain ⟨k, hk, h1, _⟩ := h.2 0 { region := "a", pc := .fetch } (by decide) (by decide)
  exact ⟨h.1, k, hk, h1⟩

/-- C4, the code at the failing input: the run over the regions `"a"` (three
images) and `"b"` (no repository) of the sample environment starts from a
zeroed counter, both regions are reported available and both fetches succeed.
`Complete++` in the deferred function of `getECRRecordsPerRegion` is a load
and a store with no lock around them, executed by each worker after it has
given its permit back: under the schedule in which both workers load
`Complete` before either stores it, `wg.Wait()` returns with `Complete = 1`
for two regions, with `Error = 0` and the one record of region `"a"`. -/
theorem C4_complete_update_lost :
    (sampleModule ["a", "b"]).CommandCounter =
      { Total := 0, Pending := 0, Complete := 0, Error := 0, Executing := 0 } ∧
    (∀ r ∈ (sampleModule ["a", "b"]).AWSRegions, available sampleEnv r = true ∧
      fetchSucceeds sampleEnv (sampleModule ["a", "b"]).Account r = true) ∧
    (PrintECRFine sampleEnv (sampleModule ["a", "b"])
      ([0, 0] ++ List.replicate 11 1 ++ List.replicate 10 2)).workers =
      [{ region := "a", pc := .compStore 0 }, { region := "b", pc := .compStore 0 }] ∧
    (PrintECRFine sampleEnv (sampleModule ["a", "b"]) lostUpdateSchedule).joined = true ∧
    (PrintECRFine sampleEnv (sampleModule ["a", "b"]) lostUpdateSchedule).m.CommandCounter =
      { Total := 2, Pending := 2, Complete := 1, Error := 0, Executing := -2 } ∧
    (PrintECRFine sampleEnv (sampleModule ["a", "b"]) lostUpdateSchedule).m.Repositories =
      [{ AWSService := "ECR", Region := "a", Name := "app", URI := "registry/app:v3",
         PushedAt := "2022-01-01 00:00:00", ImageTags := "v3", ImageSize := 30 }] := by
  decide

/-- C5, as the code behaves. When the availability lookup of a region returns
an error together with `false`, `executeChecks` only logs the error; in a run,
the step of the region's worker at the entry of `executeChecks` logs the error
and ends the worker: it does not enter `getECRRecordsPerRegion`, the counter,
the inventory, the semaphore and the other workers are as before, and the
worker takes no further step. -/
theorem C5_lookup_error_with_false_skips_region (env : Env) (s : RunState) (i : Nat)
    (w : Worker) (err : String) (hw : s.workers[i]? = some w) (hpc : w.pc = .checks)
    (hres : env.IsServiceInRegion "ecr" w.region = (false, some err)) :
    executeChecks env s.m w.region = s.m.logError err ∧
    (stepWorker env s i).m.modLog = s.m.modLog ++ [err] ∧
    (stepWorker env s i).workers = s.workers.set i { w with pc := .done } ∧
    (stepWorker env s i).m.CommandCounter = s.m.CommandCounter ∧
    (stepWorker env s i).m.Repositories = s.m.Repositories ∧
    (stepWorker env s i).semaphore = s.semaphore ∧
    (stepWorker env s i).toStart = s.toStart ∧
    (stepWorker env s i).joined = s.joined ∧
    (stepWorker env s i).wg = s.wg - 1 ∧
    stepWorker env (stepWorker env s i) i = stepWorker env s i := by
  have hi : i < s.workers.length := (List.getElem?_eq_some.mp hw).1
  have h1 : stepWorker env s i =
      { s with m := s.m.logError err, wg := s.wg - 1,
               workers := s.workers.set i { w with pc := .done } } := by
    simp [stepWorker, hw, hpc, hres, ECRModule.logIfError]
  rw [h1]
  refine ⟨?_, rfl, rfl, rfl, rfl, rfl, rfl, rfl, rfl, ?_⟩
  · simp [executeChecks, hres, ECRModule.logIfError]
  · simp [stepWorker, hi]

/-- C5, witness: the worker of region `"d"` of the sample environment, whose
lookup returns `false` and an error. -/
theorem C5_lookup_error_with_false_skips_region_witness :
    (stepWorker sampleEnv (run sampleEnv (initial (sampleModule ["d"])) [0]) 0).m.modLog =
      ["lookup failed"] ∧
    (stepWorker sampleEnv (run sampleEnv (initial (sampleModule ["d"])) [0]) 0).m.CommandCounter =
      (run sampleEnv (initial (sampleModule ["d"])) [0]).m.CommandCounter := by
  have h := C5_lookup_error_with_false_skips_region sampleEnv
    (run sampleEnv (initial (sampleModule ["d"])) [0]) 0 { region := "d", pc := .checks }
    "lookup failed" (by decide) rfl (by decide)
  exact ⟨h.2.1, h.2.2.2.1⟩

/-- C5, counterexample: the lookup of region `"e"` returns an error together
with `true`; the error is logged, and the region is not skipped: the worker
enters `getECRRecordsPerRegion`, and the run ends with `Total = 1`,
`Complete = 1` and `Executing = -1`. -/
theorem C5_counterexample :
    sampleEnv.IsServiceInRegion "ecr" "e" = (true, some "lookup failed") ∧
    (run sampleEnv (initial (sampleModule ["e"])) [0, 1]).workers =
      [{ region := "e", pc := .acquire }] ∧
    (PrintECR sampleEnv (sampleModule ["e"]) (sequentialSchedule 1)).m.modLog =
      ["lookup failed"] ∧
    (PrintECR sampleEnv (sampleModule ["e"]) (sequentialSchedule 1)).m.CommandCounter =
      { Total := 1, Pending := 1, Complete := 1, Error := 0, Executing := -1 } := by
  decide

/-- C7, the code at the failing input: in the run over the single region `"b"`,
which is available and has no repository, the deferred function of
`getECRRecordsPerRegion` executes `Executing--` on a counter that no statement
has raised, and the run ends with `Executing = -1`. -/
theorem C7_executing_negative :
    (PrintECR sampleEnv (sampleModule ["b"]) [0, 1, 1, 1, 1, 1]).m.CommandCounter.Executing = -1 ∧
    (PrintECR sampleEnv (sampleModule ["b"]) (sequentialSchedule 1)).joined = true ∧
    (PrintECR sampleEnv (sampleModule ["b"]) (sequentialSchedule 1)).m.CommandCounter =
      { Total := 1, Pending := 1, Complete := 1, Error := 0, Executing := -1 } := by
  decide

/-! ## Claim about the Route53 module -/

/-- C6, the code at the failing input: for a hosted zone whose listing of
record sets is truncated, `getRoute53Records` calls `ListResourceRecordSets`
once and keeps the record of the first page only, while the listing followed
to its end holds the records of both pages. -/
theorem C6_truncated_record_sets_dropped :
    (getRoute53Records truncatedClient 1 emptyRoute53Module).map (fun m => m.Records) =
      some [{ AWSService := "Route53", Name := "a.example.com.", RecordType := "A",
              Value := "192.0.2.1", PrivateZone := "False" }] ∧
    listedRecords truncatedClient 2 =
      some [{ AWSService := "Route53", Name := "a.example.com.", RecordType := "A",
              Value := "192.0.2.1", PrivateZone := "False" },
            { AWSService := "Route53", Name := "b.example.com.", RecordType := "A",
              Value := "192.0.2.2", PrivateZone := "False" }] := by
  decide

/-! ## Claims about the record of a region -/

/-- C2. For a worker about to fetch a region whose DescribeRepositories and
DescribeImages calls all succeed, with `sort.Slice` returning a sorted
permutation of the region's images: when the region has no image the fetch
sends nothing and the worker's run to its end leaves `Repositories` as it is;
when it has an image the fetch sends one record, the worker's run to its end
appends exactly that record to `Repositories`, and the record's `PushedAt` is
the rendering of one of the region's images and is not less than the rendering
of any of them. -/
theorem C2_one_record_with_greatest_timestamp (env : Env) (s : RunState) (i : Nat) (w : Worker)
    (hw : s.workers[i]? = some w) (hpc : w.pc = .fetch)
    (hfetch : fetchSucceeds env s.m.Account w.region = true)
    (hperm : (env.sortSlice pushedAtLess (regionImages env s.m.Account w.region)).Perm
      (regionImages env s.m.Account w.region))
    (hsorted : SortedBy pushedAtLess
      (env.sortSlice pushedAtLess (regionImages env s.m.Account w.region))) :
    (regionImages env s.m.Account w.region = [] →
      (fetchPhase env s.m w.region).2 = none ∧
      (run env s (List.replicate 5 (i + 1))).m.Repositories = s.m.Repositories) ∧
    (regionImages env s.m.Account w.region ≠ [] →
      ∃ rec, (fetchPhase env s.m w.region).2 = some rec ∧
        (run env s (List.replicate 5 (i + 1))).m.Repositories = s.m.Repositories ++ [rec] ∧
        (∃ image ∈ regionImages env s.m.Account w.region,
          rec.PushedAt = image.ImagePushedAt.Format) ∧
        ∀ image ∈ regionImages env s.m.Account w.region,
          strLess rec.PushedAt image.ImagePushedAt.Format = false) := by
  have hi : i < s.workers.length := (List.getElem?_eq_some.mp hw).1
  have h2 := fetchPhase_snd env s.m w.region
  have h1 := fetchPhase_fst env s.m w.region
  rw [fetchRecord_of_succeeds env _ _ hfetch, selectImage_eq_getLast?] at h2
  refine ⟨fun hempty => ?_, fun hne => ?_⟩
  · rw [hempty] at hperm
    have hnil := List.Perm.eq_nil hperm
    rw [hempty, hnil] at h2
    simp only [List.getLast?_nil, Option.map_none'] at h2
    refine ⟨h2, ?_⟩
    cases hf : fetchPhase env s.m w.region with
    | mk m1 o =>
      rw [hf] at h1 h2
      simp only at h1 h2
      subst h1 h2
      simp [run, step, stepWorker, hw, hpc, hf, hi, ECRModule.complete, ECRModule.receive]
  · cases hl : (env.sortSlice pushedAtLess (regionImages env s.m.Account w.region)).getLast? with
    | none =>
      rw [List.getLast?_eq_none_iff] at hl
      rw [hl] at hperm
      exact absurd (List.Perm.nil_eq hperm).symm hne
    | some image =>
      rw [hl] at h2
      simp only [Option.map_some'] at h2
      have hmem : image ∈ regionImages env s.m.Account w.region :=
        hperm.subset (List.mem_of_getLast?_eq_some hl)
      have hgreat := getLast?_greatest pushedAtLess pushedAtLess_irrefl _ hsorted image hl
      refine ⟨_, h2, ?_, ⟨image, hmem, rfl⟩, fun other ho => ?_⟩
      · cases hf : fetchPhase env s.m w.region with
        | mk m1 o =>
          rw [hf] at h1 h2
          simp only at h1 h2
          subst h1 h2
          simp [run, step, stepWorker, hw, hpc, hf, hi, ECRModule.complete, ECRModule.receive]
      · exact hgreat other (hperm.symm.subset ho)

/-- C2, witness: the workers of region `"a"` of the sample environment, whose
three images were pushed in 2021, 2022 and 2020, and of region `"b"`, which has
no repository. -/
theorem C2_one_record_with_greatest_timestamp_witness :
    fetchSucceeds sampleEnv (sampleModule ["a"]).Account "a" = true ∧
    (∃ rec,
      (run sampleEnv (run sampleEnv (initial (sampleModule ["a"])) [0, 1, 1])
        (List.replicate 5 1)).m.Repositories = [rec] ∧
      ∀ image ∈ regionImages sampleEnv (sampleModule ["a"]).Account "a",
        strLess rec.PushedAt image.ImagePushedAt.Format = false) ∧
    (run sampleEnv (run sampleEnv (initial (sampleModule ["b"])) [0, 1, 1])
      (List.replicate 5 1)).m.Repositories = [] := by
  obtain ⟨rec, _, h2, _, h4⟩ := (C2_one_record_with_greatest_timestamp sampleEnv
    (run sampleEnv (initial (sampleModule ["a"])) [0, 1, 1]) 0 { region := "a", pc := .fetch }
    (by decide) rfl (by decide) (by decide) (by decide)).2 (by decide)
  have hb := ((C2_one_record_with_greatest_timestamp sampleEnv
    (run sampleEnv (initial (sampleModule ["b"])) [0, 1, 1]) 0 { region := "b", pc := .fetch }
    (by decide) rfl (by decide) (by decide) (by decide)).1 (by decide)).2
  exact ⟨by decide, ⟨rec, h2, h4⟩, hb⟩

/-- C8, as the code behaves. For a region whose fetch succeeds and that has at
most 12 images, which `sort.Slice` sorts by insertion, the image behind the
emitted record is the last produced of the images with the greatest rendering:
the images split into those before it, none of which has a greater rendering,
the image itself, and those after it, all of which have a smaller rendering;
its first tag, size and rendering populate the record. -/
theorem C8_last_of_the_latest_up_to_twelve_images (env : Env) (m : ECRModule) (r : String)
    (rec : Repository) (hfetch : fetchSucceeds env m.Account r = true)
    (hlen : (regionImages env m.Account r).length ≤ 12)
    (hsort : env.sortSlice pushedAtLess (regionImages env m.Account r) =
      Slice pushedAtLess (regionImages env m.Account r))
    (hrec : (fetchPhase env m r).2 = some rec) :
    ∃ pre image post, regionImages env m.Account r = pre ++ image :: post ∧
      (∀ x ∈ pre, pushedAtLess image x = false) ∧
      (∀ x ∈ post, pushedAtLess x image = true) ∧
      rec.ImageTags = firstTag image ∧
      rec.ImageSize = ToInt64 image.ImageSizeInBytes ∧
      rec.PushedAt = image.ImagePushedAt.Format := by
  rw [fetchPhase_snd, fetchRecord_of_succeeds env _ _ hfetch, selectImage_eq_getLast?, hsort,
    Slice_eq_insertionSort _ _ hlen] at hrec
  cases himgs : regionImages env m.Account r with
  | nil =>
    rw [himgs] at hrec
    simp [insertionSort_func, insertionOuter] at hrec
  | cons x0 tl =>
    rw [himgs, insertionSort_func_getLast?] at hrec
    simp only [Option.map_some', Option.some.injEq] at hrec
    obtain ⟨pre, post, h1, h2, h3⟩ := lastMax_spec pushedAtLess pushedAtLess_trans
      pushedAtLess_negtrans tl [] x0 [] (by simp) (by simp)
    refine ⟨pre, lastMax pushedAtLess x0 tl, post, by simpa using h1, h2, h3, ?_, ?_, ?_⟩ <;>
      rw [← hrec] <;> rfl

/-- C8, witness: the region of `shortTieEnv` has twelve images, of which the
second (tag `"first"`) and the third (tag `"second"`) share the greatest
rendering; the image behind the emitted record is the third, the one of the
two that the API produced last. -/
theorem C8_last_of_the_latest_up_to_twelve_images_witness :
    (regionImages shortTieEnv (sampleModule ["t"]).Account "t")[1]? =
      some (imageOf 2022 "first" 2) ∧
    (regionImages shortTieEnv (sampleModule ["t"]).Account "t")[2]? =
      some (imageOf 2022 "second" 3) ∧
    (imageOf 2022 "first" 2).ImagePushedAt.Format =
      (imageOf 2022 "second" 3).ImagePushedAt.Format ∧
    (∀ x ∈ regionImages shortTieEnv (sampleModule ["t"]).Account "t",
      pushedAtLess (imageOf 2022 "second" 3) x = false) ∧
    ∃ pre image post,
      regionImages shortTieEnv (sampleModule ["t"]).Account "t" = pre ++ image :: post ∧
      (∀ x ∈ pre, pushedAtLess image x = false) ∧
      (∀ x ∈ post, pushedAtLess x image = true) ∧
      firstTag image = "second" ∧
      ToInt64 image.ImageSizeInBytes = 3 ∧
      image.ImagePushedAt.Format = (imageOf 2022 "second" 3).ImagePushedAt.Format := by
  obtain ⟨pre, image, post, h1, h2, h3, h4, h5, h6⟩ :=
    C8_last_of_the_latest_up_to_twelve_images shortTieEnv (sampleModule ["t"]) "t"
      { AWSService := "ECR", Region := "t", Name := "app", URI := "registry/app:second",
        PushedAt := "2022-01-01 00:00:00", ImageTags := "second", ImageSize := 3 }
      (by decide) (by decide) rfl (by decide)
  exact ⟨by decide, by decide, by decide, by decide,
    pre, image, post, h1, h2, h3, h4.symm, h5.symm, h6.symm.trans (by decide)⟩

/-- C8, counterexample: the region of `tieEnv` has thirteen images, of which
the second (tag `"first"`) and the third (tag `"second"`) share the greatest
rendering; `sort.Slice` partitions the slice and leaves the second image last,
so the emitted record carries the tag and size of the image that came first of
the two, not of the one that came last. -/
theorem C8_counterexample :
    regionImages tieEnv (sampleModule ["t"]).Account "t" = tieImages ∧
    tieImages[1]? = some (imageOf 2022 "first" 2) ∧
    tieImages[2]? = some (imageOf 2022 "second" 3) ∧
    (∀ x ∈ tieImages, pushedAtLess (imageOf 2022 "second" 3) x = false) ∧
    (fetchPhase tieEnv (sampleModule ["t"]) "t").2 =
      some { AWSService := "ECR", Region := "t", Name := "app", URI := "registry/app:first",
             PushedAt := "2022-01-01 00:00:00", ImageTags := "first", ImageSize := 2 } := by
  decide

/-- C9, as the code behaves. For two timestamps whose years lie between 0 and
9999, comparing their renderings as strings gives the same result as comparing
the timestamps chronologically at one-second resolution; hence, for a region
whose fetch succeeds, whose images all have such years and whose images
`sort.Slice` returns as a sorted permutation, the image behind the emitted
record is one of the region's images and no image of the region was pushed
after it. -/
theorem C9_string_order_is_chronological_for_four_digit_years :
    (∀ t u : Time, 0 ≤ t.year → t.year ≤ 9999 → 0 ≤ u.year → u.year ≤ 9999 →
      strLess t.Format u.Format = t.Before u) ∧
    ∀ (env : Env) (m : ECRModule) (r : String) (rec : Repository),
      fetchSucceeds env m.Account r = true →
      (env.sortSlice pushedAtLess (regionImages env m.Account r)).Perm
        (regionImages env m.Account r) →
      SortedBy pushedAtLess (env.sortSlice pushedAtLess (regionImages env m.Account r)) →
      (∀ x ∈ regionImages env m.Account r,
        0 ≤ x.ImagePushedAt.year ∧ x.ImagePushedAt.year ≤ 9999) →
      (fetchPhase env m r).2 = some rec →
      ∃ image ∈ regionImages env m.Account r,
        rec = buildRecord r (regionLocals env m.Account r) image ∧
        ∀ other ∈ regionImages env m.Account r,
          image.ImagePushedAt.Before other.ImagePushedAt = false := by
  refine ⟨fun t u h1 h2 h3 h4 => strLess_format_eq_before t u h1 h2 h3 h4, ?_⟩
  intro env m r rec hfetch hperm hsorted hyears hrec
  rw [fetchPhase_snd, fetchRecord_of_succeeds env _ _ hfetch, selectImage_eq_getLast?] at hrec
  cases hl : (env.sortSlice pushedAtLess (regionImages env m.Account r)).getLast? with
  | none => simp [hl] at hrec
  | some image =>
    rw [hl] at hrec
    simp only [Option.map_some', Option.some.injEq] at hrec
    have hmem : image ∈ regionImages env m.Account r :=
      hperm.subset (List.mem_of_getLast?_eq_some hl)
    have hgreat := getLast?_greatest pushedAtLess pushedAtLess_irrefl _ hsorted image hl
    refine ⟨image, hmem, hrec.symm, fun other ho => ?_⟩
    have := hgreat other (hperm.symm.subset ho)
    rw [← strLess_format_eq_before _ _ (hyears image hmem).1 (hyears image hmem).2
      (hyears other ho).1 (hyears other ho).2]
    exact this

/-- C9, witness: the timestamps of the first of January of 2021 and of 2022,
and region `"a"` of the sample environment, whose latest image was pushed in
2022. -/
theorem C9_string_order_is_chronological_for_four_digit_years_witness :
    strLess (imageOf 2021 "v2" 20).ImagePushedAt.Format
      (imageOf 2022 "v3" 30).ImagePushedAt.Format =
      (imageOf 2021 "v2" 20).ImagePushedAt.Before (imageOf 2022 "v3" 30).ImagePushedAt ∧
    ∃ image ∈ regionImages sampleEnv (sampleModule ["a"]).Account "a",
      ∀ other ∈ regionImages sampleEnv (sampleModule ["a"]).Account "a",
        image.ImagePushedAt.Before other.ImagePushedAt = false := by
  obtain ⟨image, h1, _, h3⟩ := C9_string_order_is_chronological_for_four_digit_years.2
    sampleEnv (sampleModule ["a"]) "a"
    { AWSService := "ECR", Region := "a", Name := "app", URI := "registry/app:v3",
      PushedAt := "2022-01-01 00:00:00", ImageTags := "v3", ImageSize := 30 }
    (by decide) (by decide) (by decide) (by decide) (by decide)
  exact ⟨C9_string_order_is_chronological_for_four_digit_years.1 _ _ (by decide) (by decide)
    (by decide) (by decide), image, h1, h3⟩

/-- C9, counterexample: the first of January of the year 10000 renders as
`"10000-01-01 00:00:00"`, which as a string is less than the rendering
`"9999-01-01 00:00:00"` of the same day of the year 9999, although it is not
before it. -/
theorem C9_counterexample :
    (imageOf 10000 "x" 1).ImagePushedAt.Format = "10000-01-01 00:00:00" ∧
    (imageOf 9999 "y" 1).ImagePushedAt.Format = "9999-01-01 00:00:00" ∧
    strLess (imageOf 10000 "x" 1).ImagePushedAt.Format
      (imageOf 9999 "y" 1).ImagePushedAt.Format = true ∧
    (imageOf 10000 "x" 1).ImagePushedAt.Before (imageOf 9999 "y" 1).ImagePushedAt = false := by
  decide

/-- C10. Whenever the fetch of a region with at least one repository emits a
record, the record's `Name` is the name of the last repository that
DescribeRepositories returned, and its `URI` is that repository's URI, a colon
and the first tag of the selected image (nothing after the colon when the
image has no tag), whatever repository the image was listed under. -/
theorem C10_name_and_uri_of_last_repository (env : Env) (m : ECRModule) (r : String)
    (rec : Repository) (repo : RepositoryDetail)
    (hrepo : (regionRepositories env m.Account r).getLast? = some repo)
    (hrec : (fetchPhase env m r).2 = some rec) :
    rec.Name = ToString repo.RepositoryName ∧
    ∃ image, selectImage (env.sortSlice pushedAtLess (regionImages env m.Account r)) = some image ∧
      rec.ImageTags = firstTag image ∧
      rec.URI = ToString repo.RepositoryUri ++ ":" ++ firstTag image ∧
      (image.ImageTags = [] → rec.URI = ToString repo.RepositoryUri ++ ":") ∧
      ∀ tag rest, image.ImageTags = tag :: rest →
        rec.URI = ToString repo.RepositoryUri ++ ":" ++ tag := by
  rw [fetchPhase_snd] at hrec
  cases hfetch : fetchSucceeds env m.Account r
  · rw [fetchRecord_of_fails env _ _ hfetch] at hrec
    simp at hrec
  · rw [fetchRecord_of_succeeds env _ _ hfetch] at hrec
    cases hs : selectImage (env.sortSlice pushedAtLess (regionImages env m.Account r)) with
    | none => simp [hs] at hrec
    | some image =>
      rw [hs] at hrec
      simp only [Option.map_some', Option.some.injEq] at hrec
      subst hrec
      have hname : (buildRecord r (regionLocals env m.Account r) image).Name =
          ToString repo.RepositoryName := by
        simp [buildRecord, regionLocals, hrepo]
      have huri : (buildRecord r (regionLocals env m.Account r) image).URI =
          ToString repo.RepositoryUri ++ ":" ++ firstTag image := by
        simp [buildRecord, regionLocals, hrepo]
      refine ⟨hname, image, rfl, rfl, huri, fun hnil => ?_, fun tag rest hcons => ?_⟩
      · rw [huri]
        simp [firstTag, hnil]
      · rw [huri]
        simp [firstTag, hcons]

/-- C10, witness: in `twoRepositoriesEnv` the selected image (pushed in 2023,
tag `"stable"`) is listed under the first repository, `"old"`, and the record
carries the name and the URI of the last repository, `"new"`. -/
theorem C10_name_and_uri_of_last_repository_witness :
    (fetchPhase twoRepositoriesEnv (sampleModule ["t"]) "t").2 =
      some { AWSService := "ECR", Region := "t", Name := "new", URI := "registry/new:stable",
             PushedAt := "2023-01-01 00:00:00", ImageTags := "stable", ImageSize := 7 } ∧
    ("new" : String) = ToString (some "new") ∧
    ∃ image, selectImage (twoRepositoriesEnv.sortSlice pushedAtLess
        (regionImages twoRepositoriesEnv (sampleModule ["t"]).Account "t")) = some image ∧
      ("stable" : String) = firstTag image := by
  obtain ⟨h1, image, h2, h3, _⟩ := C10_name_and_uri_of_last_repository twoRepositoriesEnv
    (sampleModule ["t"]) "t"
    { AWSService := "ECR", Region := "t", Name := "new", URI := "registry/new:stable",
      PushedAt := "2023-01-01 00:00:00", ImageTags := "stable", ImageSize := 7 }
    { RepositoryName := some "new", RepositoryUri := some "registry/new" }
    (by decide) (by decide)
  exact ⟨by decide, h1, image, h2, h3⟩

end Cloudfox
